import Mathlib

/-!
Verification development for the Placer cutting-plan engine.

The TypeScript sources are shallowly embedded over `ℚ` (JavaScript numbers
carry exact values on all the integer-valued inputs considered here, and the
spec describes coordinates as real-valued millimetres).  Two generations of
the placement engine exist in the repository and both are embedded:

* namespace `P1` — `src/src/utils/placement.ts` (guillotine packer with
  alignment scoring, area-descending sort, unbounded orchestrator loop);
* namespace `P2` — the placement module captured in `src/unnamed/part_001`
  (width-descending sort, horizontal first-part placement, best-fit free-board
  scan, 1000-sheet safety bound, PVC edge handling);
* namespace `CutOpt` — `src/src/utils/cutOptimization.ts` together with the
  remainder recalculation module (`recalculateRemainders`).

Random `uuidv4()` identifiers are modelled by an explicit supply `ℕ → String`
handed to the expansion step; the `n`-th generated instance receives id
`supply n`.  The unbounded `while` loop of `P1.optimizePlacement` is modelled
with explicit fuel, `none` meaning that the loop has not finished within
`fuel` sheet-packing passes.
-/

namespace Placer

/-- JavaScript `Math.round`: round half up (towards `+∞`). -/
def jsRound (q : ℚ) : ℤ := ⌊q + 1/2⌋

/-- Dimensions of a part or sheet (`src/types.ts`). -/
structure Dimensions where
  width : ℚ
  height : ℚ
  deriving DecidableEq, Repr

/-- PVC edge-banding flags in the part frame (`src/types.ts`). -/
structure PvcEdges where
  top : Bool
  right : Bool
  bottom : Bool
  left : Bool
  deriving DecidableEq, Repr

/-- Stock sheet description (`src/types.ts`).  `margin` is the uniform inset
defining the usable rectangle. -/
structure Chipboard where
  id : String
  name : String
  dimensions : Dimensions
  thickness : ℚ
  margin : ℚ
  deriving DecidableEq, Repr

/-- A requested part with its count (`ProjectPart` in `src/types.ts`). -/
structure ProjectPart where
  id : String
  name : String
  dimensions : Dimensions
  canRotate : Bool
  count : ℕ
  pvcEdges : Option PvcEdges
  deriving DecidableEq, Repr

/-- One physical saw pass (`CutLine` in `src/types.ts`). -/
structure CutLine where
  x1 : ℚ
  y1 : ℚ
  x2 : ℚ
  y2 : ℚ
  length : ℚ
  deriving DecidableEq, Repr

/-- A leftover rectangle (`Remainder` in the remainder module). -/
structure Remainder where
  x : ℚ
  y : ℚ
  width : ℚ
  height : ℚ
  area : ℚ
  createdFrom : String
  deriving DecidableEq, Repr

/-- Insert `x` into `acc` in front of the first element `y` with `lt x y`.
Elements that compare equal to `x` therefore stay in front of it. -/
def insertOrdered (lt : α → α → Bool) (x : α) : List α → List α
  | [] => [x]
  | y :: ys => if lt x y then x :: y :: ys else y :: insertOrdered lt x ys

/-- Model of JavaScript `Array.prototype.sort` with a comparator.  V8's sort
is stable, and every comparator used in the sources induces a strict weak
order, for which the stable sorted result is unique; this stable insertion
sort therefore denotes exactly the result computed by the running code.
`lt a b` means that the comparator returns a negative number on `(a, b)`. -/
def jsSortBy (lt : α → α → Bool) (l : List α) : List α :=
  l.foldl (fun acc x => insertOrdered lt x acc) []

/-- Model of `Set<number>.add`: JavaScript sets keep insertion order and
ignore re-inserted values. -/
def setAdd (s : List ℚ) (v : ℚ) : List ℚ :=
  if v ∈ s then s else s ++ [v]

/-- Model of `Array.from(set).sort((a, b) => a - b)`. -/
def sortedAsc (s : List ℚ) : List ℚ :=
  jsSortBy (fun a b => decide (a < b)) s

/-- Length field computed in `addCut`.  The source computes
`Math.sqrt((x2-x1)^2 + (y2-y1)^2)`; every line built by `generateCutLines` is
axis-aligned (one of the two differences is `0`), where the square root equals
`|x2-x1| + |y2-y1|`, which is the value used here. -/
def axisLength (dx dy : ℚ) : ℚ := |dx| + |dy|

namespace P1

/-- Free-rectangle working state (`Rectangle` in `placement.ts`). -/
structure Rectangle where
  x : ℚ
  y : ℚ
  width : ℚ
  height : ℚ
  deriving DecidableEq, Repr

/-- One expanded part instance (`PartInstance` in `placement.ts`). -/
structure PartInstance where
  id : String
  partId : String
  name : String
  dimensions : Dimensions
  canRotate : Bool
  deriving DecidableEq, Repr

/-- A placed part as produced by `placement.ts` (its `PlacedPart` has no
`pvcEdges` field). -/
structure PlacedPart where
  id : String
  partId : String
  name : String
  dimensions : Dimensions
  x : ℚ
  y : ℚ
  rotated : Bool
  deriving DecidableEq, Repr

/-- One packed sheet (`ChipboardWithParts`). -/
structure ChipboardWithParts where
  chipboard : Chipboard
  parts : List PlacedPart
  cutLines : List CutLine
  deriving DecidableEq, Repr

/-- Statistics produced by `calculateStatistics` in `placement.ts`. -/
structure PlacementStatistics where
  totalParts : ℕ
  totalChipboards : ℕ
  totalCutLength : ℚ
  totalCutOperations : ℕ
  efficiency : ℚ
  deriving DecidableEq, Repr

/-- Result of `optimizePlacement` in `placement.ts`. -/
structure PlacementResult where
  chipboards : List ChipboardWithParts
  statistics : PlacementStatistics
  deriving DecidableEq, Repr

/-- Expansion of one `ProjectPart` into `count` instances; the `n`-th call of
`uuidv4()` in the run returns `supply n`. -/
def expandOne (p : ProjectPart) (supply : ℕ → String) (start : ℕ) : List PartInstance :=
  (List.range p.count).map fun i =>
    { id := supply (start + i)
      partId := p.id
      name := if p.name = "" then "Part " ++ p.id else p.name
      dimensions := p.dimensions
      canRotate := p.canRotate }

/-- Expansion loop of `optimizePlacement` (`placement.ts`, lines 32–44). -/
def expandFrom : List ProjectPart → (ℕ → String) → ℕ → List PartInstance
  | [], _, _ => []
  | p :: ps, s, n => expandOne p s n ++ expandFrom ps s (n + p.count)

/-- Expand all parts, threading the uuid supply. -/
def expandParts (ps : List ProjectPart) (s : ℕ → String) : List PartInstance :=
  expandFrom ps s 0

/-- Sort comparator of `placement.ts` lines 46–51: area descending. -/
def areaLt (a b : PartInstance) : Bool :=
  decide (b.dimensions.width * b.dimensions.height <
    a.dimensions.width * a.dimensions.height)

/-- The instance ordering used by `placement.ts`: by area, largest first. -/
def sortByArea (l : List PartInstance) : List PartInstance :=
  jsSortBy areaLt l

/-- Result of `findAlignedPosition`. -/
structure Aligned where
  x : ℚ
  y : ℚ
  alignmentScore : ℚ
  deriving DecidableEq, Repr

/-- First cut in `cuts` that lies in the rectangle and leaves room for a part
of size `span` (the `for … break` loops of `findAlignedPosition`). -/
def firstAlignedCut (lo extent span : ℚ) : List ℚ → Option ℚ
  | [] => none
  | c :: cs =>
      if c ≥ lo ∧ c + span ≤ lo + extent then some c
      else firstAlignedCut lo extent span cs

/-- Model of `findAlignedPosition` (`placement.ts`, lines 244–274). -/
def findAlignedPosition (rect : Rectangle) (partWidth partHeight : ℚ)
    (horizontalCuts verticalCuts : List ℚ) : Aligned :=
  let xr := firstAlignedCut rect.x rect.width partWidth verticalCuts
  let yr := firstAlignedCut rect.y rect.height partHeight horizontalCuts
  { x := xr.getD rect.x
    y := yr.getD rect.y
    alignmentScore := (if xr.isSome then 1 else 0) + (if yr.isSome then 1 else 0) }

/-- Candidate placement record of `findBestPlacement`. -/
structure Placement where
  x : ℚ
  y : ℚ
  dimensions : Dimensions
  rotated : Bool
  rect : Rectangle
  deriving DecidableEq, Repr

/-- Candidate with its score. -/
structure ScoredPlacement where
  place : Placement
  score : ℚ
  deriving DecidableEq, Repr

/-- Score and record one feasible (rectangle, orientation) pair, keeping the
incumbent on ties (the source updates only on a strictly smaller score). -/
def considerOrientation (best : Option ScoredPlacement) (rect : Rectangle)
    (w h : ℚ) (rot : Bool) (hArr vArr : List ℚ) : Option ScoredPlacement :=
  let ap := findAlignedPosition rect w h hArr vArr
  let score := rect.width * rect.height - ap.alignmentScore * 1000
  match best with
  | none => some ⟨⟨ap.x, ap.y, ⟨w, h⟩, rot, rect⟩, score⟩
  | some b => if score < b.score then some ⟨⟨ap.x, ap.y, ⟨w, h⟩, rot, rect⟩, score⟩ else some b

/-- Scan of the free rectangles in `findBestPlacement`: normal orientation
first, then (when `canRotate`) the rotated one, per rectangle in order. -/
def scanRectangles (part : PartInstance) (hArr vArr : List ℚ) :
    List Rectangle → Option ScoredPlacement → Option ScoredPlacement
  | [], best => best
  | rect :: rest, best =>
      let best1 :=
        if part.dimensions.width ≤ rect.width ∧ part.dimensions.height ≤ rect.height then
          considerOrientation best rect part.dimensions.width part.dimensions.height false hArr vArr
        else best
      let best2 :=
        if part.canRotate ∧ part.dimensions.height ≤ rect.width ∧
            part.dimensions.width ≤ rect.height then
          considerOrientation best1 rect part.dimensions.height part.dimensions.width true hArr vArr
        else best1
      scanRectangles part hArr vArr rest best2

/-- Model of `findBestPlacement` (`placement.ts`, lines 143–242). -/
def findBestPlacement (part : PartInstance) (freeRectangles : List Rectangle)
    (horizontalCuts verticalCuts : List ℚ) : Option Placement :=
  let hArr := sortedAsc horizontalCuts
  let vArr := sortedAsc verticalCuts
  (scanRectangles part hArr vArr freeRectangles none).map (·.place)

/-- Remove the first occurrence of `r` (JS `indexOf` + `splice`). -/
def removeFirst (r : Rectangle) : List Rectangle → List Rectangle
  | [] => []
  | s :: ss => if s = r then ss else s :: removeFirst r ss

/-- Model of `splitRectangle` (`placement.ts`, lines 276–312): remove the
consumed rectangle and push the right and top guillotine offspring measured
from the placement position plus kerf. -/
def splitRectangle (free : List Rectangle) (usedRect : Rectangle)
    (px py : ℚ) (dims : Dimensions) (sawThickness : ℚ) : List Rectangle :=
  if usedRect ∈ free then
    let free' := removeFirst usedRect free
    let pw := dims.width + sawThickness
    let ph := dims.height + sawThickness
    let rightRects :=
      if usedRect.width - pw > 0 then
        [Rectangle.mk (px + pw) usedRect.y (usedRect.width - pw) usedRect.height]
      else []
    let topRects :=
      if usedRect.height - ph > 0 then
        [Rectangle.mk usedRect.x (py + ph) pw (usedRect.height - ph)]
      else []
    free' ++ rightRects ++ topRects
  else free

/-- Deduplicating cut-line insertion (`addCut` in `placement.ts`); the
dedup key is the coordinate quadruple. -/
def addCut (acc : List CutLine) (x1 y1 x2 y2 : ℚ) : List CutLine :=
  if acc.any (fun c => c.x1 = x1 ∧ c.y1 = y1 ∧ c.x2 = x2 ∧ c.y2 = y2) then acc
  else acc ++ [⟨x1, y1, x2, y2, axisLength (x2 - x1) (y2 - y1)⟩]

/-- Model of `generateCutLines` (`placement.ts`, lines 314–362): one
full-usable-span vertical line per part side and one horizontal line per part
top/bottom, deduplicated. -/
def generateCutLines (parts : List PlacedPart) (cb : Chipboard) : List CutLine :=
  parts.foldl
    (fun acc part =>
      let leftCut := part.x
      let rightCut := part.x + part.dimensions.width
      let bottomCut := part.y
      let topCut := part.y + part.dimensions.height
      let acc1 := addCut acc leftCut cb.margin leftCut (cb.dimensions.height - cb.margin)
      let acc2 := addCut acc1 rightCut cb.margin rightCut (cb.dimensions.height - cb.margin)
      let acc3 := addCut acc2 cb.margin bottomCut (cb.dimensions.width - cb.margin) bottomCut
      addCut acc3 cb.margin topCut (cb.dimensions.width - cb.margin) topCut)
    []

/-- Per-part loop of `packChipboard`, threading free rectangles, the two cut
coordinate sets, the placed list and the unplaced list. -/
def packGo (sawThickness : ℚ) : List PartInstance → List Rectangle → List ℚ → List ℚ →
    List PlacedPart → List PartInstance → List PlacedPart × List PartInstance
  | [], _, _, _, placed, rem => (placed, rem)
  | p :: ps, free, hc, vc, placed, rem =>
      match findBestPlacement p free hc vc with
      | some pl =>
          let newPart : PlacedPart :=
            { id := p.id, partId := p.partId, name := p.name
              dimensions := pl.dimensions, x := pl.x, y := pl.y, rotated := pl.rotated }
          let hc' := setAdd (setAdd hc pl.y) (pl.y + pl.dimensions.height)
          let vc' := setAdd (setAdd vc pl.x) (pl.x + pl.dimensions.width)
          let free' := splitRectangle free pl.rect pl.x pl.y pl.dimensions sawThickness
          packGo sawThickness ps free' hc' vc' (placed ++ [newPart]) rem
      | none => packGo sawThickness ps free hc vc placed (rem ++ [p])

/-- Model of `packChipboard` (`placement.ts`, lines 70–141). -/
def packChipboard (cb : Chipboard) (parts : List PartInstance) (sawThickness : ℚ) :
    ChipboardWithParts × List PartInstance :=
  let availableWidth := cb.dimensions.width - 2 * cb.margin
  let availableHeight := cb.dimensions.height - 2 * cb.margin
  let res := packGo sawThickness parts
    [Rectangle.mk cb.margin cb.margin availableWidth availableHeight]
    [cb.margin] [cb.margin] [] []
  ({ chipboard := cb, parts := res.1, cutLines := generateCutLines res.1 cb }, res.2)

/-- Model of `calculateStatistics` (`placement.ts`, lines 379–419). -/
def calculateStatistics (chipboards : List ChipboardWithParts) (totalParts : ℕ)
    (cb : Chipboard) : PlacementStatistics :=
  let totalCutOperations := (chipboards.map (·.cutLines.length)).sum
  let totalCutLength := (chipboards.map (fun b => (b.cutLines.map (·.length)).sum)).sum
  let totalUsedArea :=
    (chipboards.map (fun b =>
      (b.parts.map (fun p => p.dimensions.width * p.dimensions.height)).sum)).sum
  let totalAvailableArea := (chipboards.length : ℚ) *
    (cb.dimensions.width - 2 * cb.margin) * (cb.dimensions.height - 2 * cb.margin)
  let efficiency := if totalAvailableArea > 0 then totalUsedArea / totalAvailableArea * 100 else 0
  { totalParts := totalParts
    totalChipboards := chipboards.length
    totalCutLength := (jsRound totalCutLength : ℚ)
    totalCutOperations := totalCutOperations
    efficiency := (jsRound (efficiency * 100) : ℚ) / 100 }

/-- The `while (remainingParts.length > 0)` loop of `optimizePlacement`
(`placement.ts`, lines 53–60).  The source loop has no bound; `fuel` counts
the sheet-packing passes still allowed and `none` means the loop had not
finished after the given number of passes. -/
def optLoop (cb : Chipboard) (sawThickness : ℚ) (fuel : ℕ)
    (remaining : List PartInstance) (acc : List ChipboardWithParts) :
    Option (List ChipboardWithParts) :=
  if remaining = [] then some acc
  else if _h : fuel = 0 then none
  else
    let res := packChipboard cb remaining sawThickness
    optLoop cb sawThickness (fuel - 1) res.2 (acc ++ [res.1])
termination_by fuel
decreasing_by omega

/-- Model of `optimizePlacement` (`placement.ts`, lines 27–68). -/
def optimizePlacement (fuel : ℕ) (supply : ℕ → String) (cb : Chipboard)
    (parts : List ProjectPart) (sawThickness : ℚ) : Option PlacementResult :=
  let partInstances := expandParts parts supply
  let sorted := sortByArea partInstances
  (optLoop cb sawThickness fuel sorted []).map fun boards =>
    { chipboards := boards
      statistics := calculateStatistics boards partInstances.length cb }

/-- Overlap test between two placed parts, as in the repository's own
`checkOverlap` (strict inequalities on all four sides). -/
def overlaps (p q : PlacedPart) : Prop :=
  p.x < q.x + q.dimensions.width ∧ p.x + p.dimensions.width > q.x ∧
  p.y < q.y + q.dimensions.height ∧ p.y + p.dimensions.height > q.y

instance (p q : PlacedPart) : Decidable (overlaps p q) := by
  unfold overlaps; infer_instance

/-- Within-bounds test: the part's rectangle lies inside the usable rectangle
`[margin, dim - margin]` on both axes of its sheet. -/
def withinUsable (cb : Chipboard) (p : PlacedPart) : Prop :=
  cb.margin ≤ p.x ∧ cb.margin ≤ p.y ∧
  p.x + p.dimensions.width ≤ cb.dimensions.width - cb.margin ∧
  p.y + p.dimensions.height ≤ cb.dimensions.height - cb.margin

instance (cb : Chipboard) (p : PlacedPart) : Decidable (withinUsable cb p) := by
  unfold withinUsable; infer_instance

/-- Does some sheet of the result carry two distinct overlapping parts? -/
def hasOverlappingPair (boards : List ChipboardWithParts) : Bool :=
  boards.any fun b => b.parts.any fun p => b.parts.any fun q =>
    decide (p.partId ≠ q.partId) && decide (overlaps p q)

/-- Does some sheet of the result carry a part outside its usable rectangle? -/
def hasOutOfBoundsPart (boards : List ChipboardWithParts) : Bool :=
  boards.any fun b => b.parts.any fun p => !(decide (withinUsable b.chipboard p))

end P1

namespace P2

/-- One expanded part instance (`PartInstance` in the `part_001` placement
module; it additionally carries the PVC edge flags). -/
structure PartInstance where
  id : String
  partId : String
  name : String
  dimensions : Dimensions
  canRotate : Bool
  pvcEdges : Option PvcEdges
  deriving DecidableEq, Repr

/-- A placed part as constructed by the `part_001` placement module. -/
structure PlacedPart where
  id : String
  partId : String
  name : String
  dimensions : Dimensions
  x : ℚ
  y : ℚ
  rotated : Bool
  canRotate : Bool
  pvcEdges : Option PvcEdges
  deriving DecidableEq, Repr

/-- A free board tracked during horizontal packing (inline
`{x, y, width, height}` records in the source). -/
structure Board where
  x : ℚ
  y : ℚ
  width : ℚ
  height : ℚ
  deriving DecidableEq, Repr

/-- One packed sheet; the early no-fit return of `createChipboardHorizontal`
produces no `remainders` field, modelled as the empty list. -/
structure ChipboardWithParts where
  chipboard : Chipboard
  parts : List PlacedPart
  cutLines : List CutLine
  remainders : List Remainder
  deriving DecidableEq, Repr

/-- Statistics produced by `calculateStatistics` in `part_001` (with the PVC
edge-banding total). -/
structure PlacementStatistics where
  totalParts : ℕ
  totalChipboards : ℕ
  totalCutLength : ℚ
  totalCutOperations : ℕ
  efficiency : ℚ
  totalPvcLength : ℚ
  deriving DecidableEq, Repr

/-- Result of `optimizePlacement` in `part_001`. -/
structure PlacementResult where
  chipboards : List ChipboardWithParts
  statistics : PlacementStatistics
  deriving DecidableEq, Repr

/-- JavaScript `name || defaultName` for the falsy empty string. -/
def displayName (name id : String) : String :=
  if name = "" then "Part " ++ id else name

/-- PVC edge remap applied at every rotated placement site in `part_001`:
new top = old left, new right = old top, new bottom = old right,
new left = old bottom; absent edges stay absent. -/
def rotatePvc : Option PvcEdges → Option PvcEdges
  | none => none
  | some e => some ⟨e.left, e.top, e.right, e.bottom⟩

/-- Expansion of one `ProjectPart` (`part_001`, lines 27–40). -/
def expandOne (p : ProjectPart) (supply : ℕ → String) (start : ℕ) : List PartInstance :=
  (List.range p.count).map fun i =>
    { id := supply (start + i)
      partId := p.id
      name := displayName p.name p.id
      dimensions := p.dimensions
      canRotate := p.canRotate
      pvcEdges := p.pvcEdges }

/-- Expansion loop over the part list. -/
def expandFrom : List ProjectPart → (ℕ → String) → ℕ → List PartInstance
  | [], _, _ => []
  | p :: ps, s, n => expandOne p s n ++ expandFrom ps s (n + p.count)

/-- Expand all parts, threading the uuid supply. -/
def expandParts (ps : List ProjectPart) (s : ℕ → String) : List PartInstance :=
  expandFrom ps s 0

/-- Sort comparator of `part_001` lines 44–51: width (the "length")
descending, ties broken by height descending. -/
def lengthLt (a b : PartInstance) : Bool :=
  if a.dimensions.width ≠ b.dimensions.width then
    decide (b.dimensions.width < a.dimensions.width)
  else decide (b.dimensions.height < a.dimensions.height)

/-- The instance ordering used by `part_001`. -/
def sortInstances (l : List PartInstance) : List PartInstance :=
  jsSortBy lengthLt l

/-- Comparator of the free-board capping sort: area descending. -/
def boardAreaLt (a b : Board) : Bool :=
  decide (b.width * b.height < a.width * a.height)

/-- Comparator of the free-board scan sort: width descending, ties height
descending (`part_001`, lines 270–275). -/
def boardLt (a b : Board) : Bool :=
  if a.width ≠ b.width then decide (b.width < a.width)
  else decide (b.height < a.height)

/-- Chosen orientation of a part during the best-fit scan. -/
structure Orient where
  width : ℚ
  height : ℚ
  rotated : Bool
  deriving DecidableEq, Repr

/-- Best-fit scan over the free boards for one orientation (`part_001`,
lines 287–330): keep the board index with the smallest leftover
`(board.width - w) * board.height`, subject to the fit and sheet-boundary
checks; only strict improvement replaces the incumbent. -/
def scanBoards (cb : Chipboard) (w h : ℚ) (rot : Bool) :
    List Board → ℕ → Option (ℚ × ℕ × Orient) → Option (ℚ × ℕ × Orient)
  | [], _, best => best
  | b :: bs, j, best =>
      scanBoards cb w h rot bs (j + 1)
        (if w ≤ b.width ∧ h ≤ b.height ∧ b.x + w ≤ cb.dimensions.width - cb.margin ∧
            b.y + h ≤ cb.dimensions.height - cb.margin then
          match best with
          | none => some ((b.width - w) * b.height, j, ⟨w, h, rot⟩)
          | some (br, bj, bo) =>
              if (b.width - w) * b.height < br then
                some ((b.width - w) * b.height, j, ⟨w, h, rot⟩)
              else some (br, bj, bo)
        else best)

/-- Per-part scan of the inner placement loop (`part_001`, lines 280–333):
take the first part that fits some board, in its best-fit orientation. -/
def tryParts (cb : Chipboard) (boards : List Board) :
    List PartInstance → ℕ → Option (ℕ × PartInstance × Orient × ℕ)
  | [], _ => none
  | p :: ps, i =>
      let s1 := scanBoards cb p.dimensions.width p.dimensions.height false boards 0 none
      let s2 :=
        if p.canRotate then
          scanBoards cb p.dimensions.height p.dimensions.width true boards 0 s1
        else s1
      match s2 with
      | some (_, j, o) => some (i, p, o, j)
      | none => tryParts cb boards ps (i + 1)

/-- Fold for `Math.min(...)` over a nonempty mapped list. -/
def minOver (f : PartInstance → ℚ) : List PartInstance → ℚ
  | [] => 0
  | p :: ps => ps.foldl (fun m q => min m (f q)) (f p)

/-- Remove the first remainder whose rectangle coincides with the consumed
board (`findIndex` + `splice`, `part_001` lines 362–372). -/
def removeRemainder (b : Board) : List Remainder → List Remainder
  | [] => []
  | r :: rs =>
      if r.x = b.x ∧ r.y = b.y ∧ r.width = b.width ∧ r.height = b.height then rs
      else r :: removeRemainder b rs

/-- New remainders and free boards created after placing a part in a board
(`part_001`, lines 374–473): four cases on whether the orientation matches the
board's width/height up to the `0.01` tolerance.  Returns the pushed
remainders (the pushed boards have the same rectangles, in the same order). -/
def newOffcuts (b : Board) (o : Orient) (sawThickness : ℚ) (who : String) :
    List Remainder :=
  let widthMatches := |o.width - b.width| < 1/100
  let heightMatches := |o.height - b.height| < 1/100
  if widthMatches ∧ heightMatches then []
  else if widthMatches ∧ ¬ heightMatches then
    let w := b.width
    let h := b.height - o.height - sawThickness
    if w > 0 ∧ h > 0 then
      [⟨b.x, b.y + o.height + sawThickness, w, h, w * h, who⟩]
    else []
  else if ¬ widthMatches ∧ heightMatches then
    let w := b.width - o.width - sawThickness
    let h := b.height
    if w > 0 ∧ h > 0 then
      [⟨b.x + o.width + sawThickness, b.y, w, h, w * h, who⟩]
    else []
  else
    let rw := b.width - o.width - sawThickness
    let rh := o.height
    let bw := b.width
    let bh := b.height - o.height - sawThickness
    (if rw > 0 ∧ rh > 0 then
      [⟨b.x + o.width + sawThickness, b.y, rw, rh, rw * rh, who⟩] else []) ++
    (if bw > 0 ∧ bh > 0 then
      [⟨b.x, b.y + o.height + sawThickness, bw, bh, bw * bh, who⟩] else [])

/-- Free boards corresponding to `newOffcuts` (the source pushes a board for
every pushed remainder, with the same rectangle). -/
def offcutBoards (rems : List Remainder) : List Board :=
  rems.map fun r => ⟨r.x, r.y, r.width, r.height⟩

/-- State threaded through the inner placement loop. -/
structure InnerState where
  partsToProcess : List PartInstance
  freeBoards : List Board
  remainders : List Remainder
  placedParts : List PlacedPart
  deriving DecidableEq, Repr

/-- Free-board filtering and capping at the top of the `while` loop body
(`part_001`, lines 246–262): drop boards too small for every remaining part
(with the rotation-aware minimum), then cap at the 1000 largest by area. -/
def cappedBoards (parts : List PartInstance) (fb : List Board) : List Board :=
  let minW := minOver (fun p =>
    if p.canRotate then min p.dimensions.width p.dimensions.height
    else p.dimensions.width) parts
  let minH := minOver (fun p =>
    if p.canRotate then min p.dimensions.height p.dimensions.width
    else p.dimensions.height) parts
  let boards1 := fb.filter fun b => minW ≤ b.width ∧ minH ≤ b.height
  if 1000 < boards1.length then (jsSortBy boardAreaLt boards1).take 1000 else boards1

/-- One pass of the `while` loop body of `createChipboardHorizontal`
(`part_001`, lines 246–476): filter and cap the free boards, scan for the
first part with a best-fit board, and produce the next state; `none` when the
loop breaks (no usable board or no part fits). -/
def innerBody (cb : Chipboard) (sawThickness : ℚ) (st : InnerState) :
    Option InnerState :=
  let boards2 := cappedBoards st.partsToProcess st.freeBoards
  if boards2 = [] then none
  else
    let boards3 := jsSortBy boardLt boards2
    match tryParts cb boards3 st.partsToProcess 0 with
    | none => none
    | some (i, part, o, j) =>
        let board := boards3.getD j ⟨0, 0, 0, 0⟩
        let placedPart : PlacedPart :=
          { id := part.id, partId := part.partId, name := part.name
            dimensions := ⟨o.width, o.height⟩
            x := board.x, y := board.y
            rotated := o.rotated
            canRotate := part.canRotate
            pvcEdges := if o.rotated then rotatePvc part.pvcEdges else part.pvcEdges }
        let rems := newOffcuts board o sawThickness (displayName part.name part.id)
        some
          { partsToProcess := st.partsToProcess.eraseIdx i
            freeBoards := boards3.eraseIdx j ++ offcutBoards rems
            remainders := removeRemainder board st.remainders ++ rems
            placedParts := st.placedParts ++ [placedPart] }

/-- The `while` loop of `createChipboardHorizontal` (`part_001`,
lines 240–483) with its `maxIterations = 10000` bound, counting up. -/
def innerLoop (cb : Chipboard) (sawThickness : ℚ) (count : ℕ)
    (st : InnerState) : InnerState :=
  if st.partsToProcess = [] then st
  else if _h : ¬ count < 10000 then st
  else
    match innerBody cb sawThickness st with
    | none => st
    | some st' => innerLoop cb sawThickness (count + 1) st'
termination_by 10000 - count
decreasing_by omega

/-- Deduplicating cut-line insertion (`addCut` in `part_001`). -/
def addCut (acc : List CutLine) (x1 y1 x2 y2 : ℚ) : List CutLine :=
  if acc.any (fun c => c.x1 = x1 ∧ c.y1 = y1 ∧ c.x2 = x2 ∧ c.y2 = y2) then acc
  else acc ++ [⟨x1, y1, x2, y2, axisLength (x2 - x1) (y2 - y1)⟩]

/-- Model of `generateCutLines` (`part_001`, lines 2306–2354). -/
def generateCutLines (parts : List PlacedPart) (cb : Chipboard) : List CutLine :=
  parts.foldl
    (fun acc part =>
      let leftCut := part.x
      let rightCut := part.x + part.dimensions.width
      let bottomCut := part.y
      let topCut := part.y + part.dimensions.height
      let acc1 := addCut acc leftCut cb.margin leftCut (cb.dimensions.height - cb.margin)
      let acc2 := addCut acc1 rightCut cb.margin rightCut (cb.dimensions.height - cb.margin)
      let acc3 := addCut acc2 cb.margin bottomCut (cb.dimensions.width - cb.margin) bottomCut
      addCut acc3 cb.margin topCut (cb.dimensions.width - cb.margin) topCut)
    []

/-- The first placed part of a sheet (`part_001`, lines 158–171): placed at
the margin corner, never rotated, PVC edges unchanged. -/
def firstPlaced (cb : Chipboard) (firstPart : PartInstance) : PlacedPart :=
  { id := firstPart.id, partId := firstPart.partId, name := firstPart.name
    dimensions := ⟨firstPart.dimensions.width, firstPart.dimensions.height⟩
    x := cb.margin, y := cb.margin
    rotated := false
    canRotate := firstPart.canRotate
    pvcEdges := firstPart.pvcEdges }

/-- Model of `createChipboardHorizontal` (`part_001`, lines 127–501). -/
def createChipboardHorizontal (cb : Chipboard) (firstPart : PartInstance)
    (remainingParts : List PartInstance) (sawThickness : ℚ) :
    ChipboardWithParts × List PartInstance :=
  let firstPartRight := cb.margin + firstPart.dimensions.width
  let firstPartBottom := cb.margin + firstPart.dimensions.height
  let cbRight := cb.dimensions.width - cb.margin
  let cbBottom := cb.dimensions.height - cb.margin
  if firstPartRight > cbRight ∨ firstPartBottom > cbBottom then
    (⟨cb, [], [], []⟩, firstPart :: remainingParts)
  else
    let rightX := cb.margin + firstPart.dimensions.width + sawThickness
    let rightW := cb.dimensions.width - rightX - cb.margin
    let rightH := firstPart.dimensions.height
    let firstRems :=
      (if rightW > 0 ∧ rightH > 0 then
        [(⟨rightX, cb.margin, rightW, rightH, rightW * rightH,
          "First part (" ++ displayName firstPart.name firstPart.id ++ ") - Right"⟩ : Remainder)]
      else []) ++
      (let bottomY := cb.margin + firstPart.dimensions.height + sawThickness
       let bottomW := cb.dimensions.width - 2 * cb.margin
       let bottomH := cb.dimensions.height - bottomY - cb.margin
       if bottomW > 0 ∧ bottomH > 0 then
        [(⟨cb.margin, bottomY, bottomW, bottomH, bottomW * bottomH,
          "First part (" ++ displayName firstPart.name firstPart.id ++ ") - Bottom"⟩ : Remainder)]
       else [])
    let final := innerLoop cb sawThickness 0
      { partsToProcess := remainingParts
        freeBoards := offcutBoards firstRems
        remainders := firstRems
        placedParts := [firstPlaced cb firstPart] }
    (⟨cb, final.placedParts, generateCutLines final.placedParts cb, final.remainders⟩,
      final.partsToProcess)

/-- PVC contribution of one placed part inside `calculateStatistics`
(`part_001`, lines 2396–2401): final-orientation width once per set top or
bottom edge plus final-orientation height once per set left or right edge. -/
def partPvcLength (p : PlacedPart) : ℚ :=
  match p.pvcEdges with
  | none => 0
  | some e =>
      (if e.top then p.dimensions.width else 0) +
      (if e.bottom then p.dimensions.width else 0) +
      (if e.left then p.dimensions.height else 0) +
      (if e.right then p.dimensions.height else 0)

/-- Model of `calculateStatistics` (`part_001`, lines 2371–2422). -/
def calculateStatistics (chipboards : List ChipboardWithParts) (totalParts : ℕ)
    (cb : Chipboard) : PlacementStatistics :=
  let totalCutOperations := (chipboards.map (·.cutLines.length)).sum
  let totalCutLength := (chipboards.map (fun b => (b.cutLines.map (·.length)).sum)).sum
  let totalUsedArea :=
    (chipboards.map (fun b =>
      (b.parts.map (fun p => p.dimensions.width * p.dimensions.height)).sum)).sum
  let totalPvcLength := (chipboards.map (fun b => (b.parts.map partPvcLength).sum)).sum
  let totalAvailableArea := (chipboards.length : ℚ) *
    (cb.dimensions.width - 2 * cb.margin) * (cb.dimensions.height - 2 * cb.margin)
  let efficiency := if totalAvailableArea > 0 then totalUsedArea / totalAvailableArea * 100 else 0
  { totalParts := totalParts
    totalChipboards := chipboards.length
    totalCutLength := (jsRound totalCutLength : ℚ)
    totalCutOperations := totalCutOperations
    efficiency := (jsRound (efficiency * 100) : ℚ) / 100
    totalPvcLength := (jsRound totalPvcLength : ℚ) }

/-- The orchestrator loop of `optimizePlacement` (`part_001`, lines 53–76):
shift the first remaining instance, pack a fresh sheet around it, repeat while
parts remain and fewer than `maxChipboards = 1000` sheets were started. -/
def orchGo (cb : Chipboard) (sawThickness : ℚ) (count : ℕ)
    (remaining : List PartInstance) (acc : List ChipboardWithParts) :
    List ChipboardWithParts × List PartInstance :=
  if h : remaining = [] then (acc, remaining)
  else if _h : ¬ count < 1000 then (acc, remaining)
  else
    match remaining, h with
    | first :: rest, _ =>
      let res := createChipboardHorizontal cb first rest sawThickness
      orchGo cb sawThickness (count + 1) res.2 (acc ++ [res.1])
termination_by 1000 - count
decreasing_by omega

/-- Model of `optimizePlacement` (`part_001`, lines 22–89). -/
def optimizePlacement (supply : ℕ → String) (cb : Chipboard)
    (parts : List ProjectPart) (sawThickness : ℚ) : PlacementResult :=
  let partInstances := expandParts parts supply
  let sorted := sortInstances partInstances
  let res := orchGo cb sawThickness 0 sorted []
  { chipboards := res.1
    statistics := calculateStatistics res.1 partInstances.length cb }

/-- Overlap test between two placed parts (`checkOverlap` in `part_001`,
lines 1553–1572). -/
def overlapsP (p q : PlacedPart) : Prop :=
  p.x < q.x + q.dimensions.width ∧ p.x + p.dimensions.width > q.x ∧
  p.y < q.y + q.dimensions.height ∧ p.y + p.dimensions.height > q.y

instance (p q : PlacedPart) : Decidable (overlapsP p q) := by
  unfold overlapsP; infer_instance

end P2

namespace CutOpt

/-- A cut segment collected per coordinate (`{start, end}` records in
`cutOptimization.ts`; the `end` field is renamed `stop` because `end` is a
Lean keyword). -/
structure Segment where
  start : ℚ
  stop : ℚ
  deriving DecidableEq, Repr

/-- Model of `addCutSegment` (`cutOptimization.ts`, lines 77–87): JavaScript
`Map` keyed by coordinate, keys in insertion order, segments appended. -/
def addCutSegment (m : List (ℚ × List Segment)) (pos : ℚ) (s : Segment) :
    List (ℚ × List Segment) :=
  match m with
  | [] => [(pos, [s])]
  | (k, ss) :: rest =>
      if k = pos then (k, ss ++ [s]) :: rest else (k, ss) :: addCutSegment rest pos s

/-- The vertical-cut collection loop of `recalculateCutLines`: for each part,
its left and right x-coordinates with the part's y-span. -/
def collectVertical (parts : List P2.PlacedPart) : List (ℚ × List Segment) :=
  parts.foldl
    (fun m p =>
      let s : Segment := ⟨p.y, p.y + p.dimensions.height⟩
      addCutSegment (addCutSegment m p.x s) (p.x + p.dimensions.width) s)
    []

/-- The horizontal-cut collection loop of `recalculateCutLines`. -/
def collectHorizontal (parts : List P2.PlacedPart) : List (ℚ × List Segment) :=
  parts.foldl
    (fun m p =>
      let s : Segment := ⟨p.x, p.x + p.dimensions.width⟩
      addCutSegment (addCutSegment m p.y s) (p.y + p.dimensions.height) s)
    []

/-- Comparator of the segment sort in `mergeSegments`. -/
def segLt (a b : Segment) : Bool := decide (a.start < b.start)

/-- Merge fold of `mergeSegments`: absorb the next segment into the current
one when it starts at or before the current end, extending the end to the
maximum. -/
def mergeRun : Segment → List Segment → List Segment
  | last, [] => [last]
  | last, c :: cs =>
      if c.start ≤ last.stop then mergeRun ⟨last.start, max last.stop c.stop⟩ cs
      else last :: mergeRun c cs

/-- Model of `mergeSegments` (`cutOptimization.ts`, lines 89–109). -/
def mergeSegments (segments : List Segment) : List Segment :=
  match jsSortBy segLt segments with
  | [] => []
  | s :: rest => mergeRun s rest

/-- Model of `recalculateCutLines` (`cutOptimization.ts`, lines 3–75).  The
`sawThickness` argument is unused by the source as well. -/
def recalculateCutLines (parts : List P2.PlacedPart) (cb : Chipboard)
    (_sawThickness : ℚ) : List CutLine :=
  let vertical := collectVertical parts
  let horizontal := collectHorizontal parts
  (vertical.flatMap fun e =>
    if e.1 < cb.margin ∨ e.1 > cb.dimensions.width - cb.margin then []
    else
      (mergeSegments e.2).flatMap fun s =>
        let y1 := max s.start cb.margin
        let y2 := min s.stop (cb.dimensions.height - cb.margin)
        if y2 > y1 then [⟨e.1, y1, e.1, y2, y2 - y1⟩] else []) ++
  (horizontal.flatMap fun e =>
    if e.1 < cb.margin ∨ e.1 > cb.dimensions.height - cb.margin then []
    else
      (mergeSegments e.2).flatMap fun s =>
        let x1 := max s.start cb.margin
        let x2 := min s.stop (cb.dimensions.width - cb.margin)
        if x2 > x1 then [⟨x1, e.1, x2, e.1, x2 - x1⟩] else [])

/-- Model of `recalculateStatistics` (`cutOptimization.ts`, lines 111–145);
it computes the same fields as `P1.calculateStatistics`. -/
def recalculateStatistics (chipboards : List P2.ChipboardWithParts) (totalParts : ℕ)
    (cb : Chipboard) : P1.PlacementStatistics :=
  let totalCutOperations := (chipboards.map (·.cutLines.length)).sum
  let totalCutLength := (chipboards.map (fun b => (b.cutLines.map (·.length)).sum)).sum
  let totalUsedArea :=
    (chipboards.map (fun b =>
      (b.parts.map (fun p => p.dimensions.width * p.dimensions.height)).sum)).sum
  let totalAvailableArea := (chipboards.length : ℚ) *
    (cb.dimensions.width - 2 * cb.margin) * (cb.dimensions.height - 2 * cb.margin)
  let efficiency := if totalAvailableArea > 0 then totalUsedArea / totalAvailableArea * 100 else 0
  { totalParts := totalParts
    totalChipboards := chipboards.length
    totalCutLength := (jsRound totalCutLength : ℚ)
    totalCutOperations := totalCutOperations
    efficiency := (jsRound (efficiency * 100) : ℚ) / 100 }

/-- Consecutive pairs of a sorted coordinate list (the
`for (let i = 0; i < sorted.length - 1; i++)` strip/segment loops). -/
def consecPairs : List ℚ → List (ℚ × ℚ)
  | a :: b :: rest => (a, b) :: consecPairs (b :: rest)
  | _ => []

/-- Model of `recalculateRemainders` (remainder module, lines 156–287):
horizontal strips from the distinct part top/bottom coordinates, vertical
segments per strip from the x-coordinates of parts overlapping the strip,
free segments shrunk inward by the kerf on every internal boundary. -/
def recalculateRemainders (parts : List P2.PlacedPart) (cb : Chipboard)
    (sawThickness : ℚ) : List Remainder :=
  if parts = [] then
    let usableWidth := cb.dimensions.width - 2 * cb.margin
    let usableHeight := cb.dimensions.height - 2 * cb.margin
    if usableWidth > 0 ∧ usableHeight > 0 then
      [⟨cb.margin, cb.margin, usableWidth, usableHeight,
        usableWidth * usableHeight, "Empty board"⟩]
    else []
  else
    let margin := cb.margin
    let maxX := cb.dimensions.width - margin
    let maxY := cb.dimensions.height - margin
    let yCoords := parts.foldl
      (fun s p => setAdd (setAdd s p.y) (p.y + p.dimensions.height))
      (setAdd (setAdd [] margin) maxY)
    let sortedY := sortedAsc yCoords
    let rems := (consecPairs sortedY).flatMap fun strip =>
      let stripTop := strip.1
      let stripBottom := strip.2
      let stripHeight := stripBottom - stripTop
      if stripHeight ≤ 0 then []
      else
        let partsInStrip := parts.filter fun p =>
          p.y < stripBottom ∧ p.y + p.dimensions.height > stripTop
        let xCoords := partsInStrip.foldl
          (fun s p => setAdd (setAdd s p.x) (p.x + p.dimensions.width))
          (setAdd (setAdd [] margin) maxX)
        let sortedX := sortedAsc xCoords
        (consecPairs sortedX).flatMap fun seg =>
          let segLeft := seg.1
          let segRight := seg.2
          let segWidth := segRight - segLeft
          if segWidth ≤ 0 then []
          else
            let isFree := ¬ partsInStrip.any fun p =>
              decide (p.x < segRight ∧ p.x + p.dimensions.width > segLeft)
            if isFree then
              let isLeftEdge := segLeft = margin
              let isRightEdge := segRight = maxX
              let isTopEdge := stripTop = margin
              let isBottomEdge := stripBottom = maxY
              let rX := if ¬ isLeftEdge then segLeft + sawThickness else segLeft
              let rW0 := if ¬ isLeftEdge then segWidth - sawThickness else segWidth
              let rW := if ¬ isRightEdge ∧ rW0 > sawThickness then rW0 - sawThickness else rW0
              let rY := if ¬ isTopEdge then stripTop + sawThickness else stripTop
              let rH0 := if ¬ isTopEdge then stripHeight - sawThickness else stripHeight
              let rH := if ¬ isBottomEdge ∧ rH0 > sawThickness then rH0 - sawThickness else rH0
              if rW > 0 ∧ rH > 0 then
                [⟨rX, rY, rW, rH, rW * rH, "Recalculated"⟩]
              else []
            else []
    rems.filter fun r => decide (r.width > 0) && decide (r.height > 0)

/-- Modelled from the spec: the external interface `recomputeLayout`
(spec §6) is the composition, on one sheet layout, of the two source
functions embedded above — re-run `recalculateCutLines` and
`recalculateRemainders` on the unchanged `PlacedPart` sequence, leaving the
chipboard and the part positions untouched.  Only this one-line glue is taken
from the spec; both recalculation functions are translated from the source. -/
def recomputeLayout (L : P2.ChipboardWithParts) (sawThickness : ℚ) :
    P2.ChipboardWithParts :=
  { chipboard := L.chipboard
    parts := L.parts
    cutLines := recalculateCutLines L.parts L.chipboard sawThickness
    remainders := recalculateRemainders L.parts L.chipboard sawThickness }

end CutOpt

/-- A deterministic stand-in for the stream of `uuidv4()` results used when
evaluating the model on concrete inputs (the engine never branches on the
generated ids, which the determinism analysis below proves). -/
def uuidConst : ℕ → String := fun _ => "uuid"

/-- A 100 mm × 100 mm sheet with no margin. -/
def sheet100 : Chipboard := ⟨"cb", "board", ⟨100, 100⟩, 18, 0⟩

/-- Helper to build a one-off part request. -/
def onePart (i : String) (w h : ℚ) (rot : Bool := false) : ProjectPart :=
  ⟨i, i, ⟨w, h⟩, rot, 1, none⟩

/-- Failing input for the no-overlap claim: five non-rotatable parts packed
with kerf 2 on the empty 100 × 100 sheet. -/
def partsOverlapBug : List ProjectPart :=
  [onePart "A" 60 60, onePart "B" 36 90, onePart "C" 30 30,
   onePart "D" 2 30, onePart "E" 5 9]

/-- Failing input for the bounds claim: a 102 mm wide part on a 100 mm sheet
with kerf 5. -/
def partsBoundsBug : List ProjectPart := [onePart "A" 100 40, onePart "B" 102 30]

/-- Failing input for the termination claim: a part larger than the sheet in
both axes, not rotatable. -/
def partsNeverFit : List ProjectPart := [onePart "X" 200 200]

/-- The open rectangle of a placed part, as a subset of the real plane. -/
def partSet (p : P2.PlacedPart) : Set (ℝ × ℝ) :=
  Set.Ioo (p.x : ℝ) ((p.x : ℝ) + (p.dimensions.width : ℝ)) ×ˢ
    Set.Ioo (p.y : ℝ) ((p.y : ℝ) + (p.dimensions.height : ℝ))

/-- Union of the open rectangles of a list of placed parts. -/
def partsUnion (l : List P2.PlacedPart) : Set (ℝ × ℝ) :=
  l.foldr (fun p s => partSet p ∪ s) ∅

/-- The hypothesis of the efficiency-bound claim for one part: nonnegative
extents lying inside the usable rectangle `[margin, dim - margin]` of the
sheet template on both axes. -/
def fitsUsable (cb : Chipboard) (p : P2.PlacedPart) : Prop :=
  0 ≤ p.dimensions.width ∧ 0 ≤ p.dimensions.height ∧
  cb.margin ≤ p.x ∧ cb.margin ≤ p.y ∧
  p.x + p.dimensions.width ≤ cb.dimensions.width - cb.margin ∧
  p.y + p.dimensions.height ≤ cb.dimensions.height - cb.margin

instance (cb : Chipboard) (p : P2.PlacedPart) : Decidable (fitsUsable cb p) := by
  unfold fitsUsable; infer_instance

/-- The hypothesis of the efficiency-bound claim for one sheet: pairwise
non-overlapping parts, all inside the template's usable rectangle. -/
def validSheet (cb : Chipboard) (b : P2.ChipboardWithParts) : Prop :=
  b.parts.Pairwise (fun p q => ¬ P2.overlapsP p q) ∧ ∀ p ∈ b.parts, fitsUsable cb p

/-- A full-sheet placed part used as the efficiency-bound witness. -/
def fullPart : P2.PlacedPart := ⟨"u", "A", "A", ⟨100, 100⟩, 0, 0, false, false, none⟩

/-- A one-part sheet layout used as the efficiency-bound witness. -/
def fullBoard : P2.ChipboardWithParts := ⟨sheet100, [fullPart], [], []⟩

/-- Relation between a placed part and the instance it was built from, as far
as the rotation-legality claim is concerned. -/
def placedFrom (inst : P2.PartInstance) (q : P2.PlacedPart) : Prop :=
  q.partId = inst.partId ∧
  (q.rotated = true →
    inst.canRotate = true ∧
    q.dimensions = ⟨inst.dimensions.height, inst.dimensions.width⟩ ∧
    q.pvcEdges = P2.rotatePvc inst.pvcEdges)

/-- A two-part job whose second part only fits rotated: an 80 by 80 square
followed by a 15 by 95 strip that can rotate. -/
def partsC8 : List ProjectPart := [onePart "A" 80 80, onePart "B" 15 95 true]

/-- The placement the `part_001` engine produces for part B of `partsC8`:
rotated into the bottom offcut. -/
def qC8 : P2.PlacedPart :=
  { id := "uuid", partId := "B", name := "B", dimensions := ⟨95, 15⟩,
    x := 0, y := 80, rotated := true, canRotate := true, pvcEdges := none }

/-- The single sheet the `part_001` engine produces on `partsC8`. -/
def boardC8 : P2.ChipboardWithParts :=
  { chipboard := sheet100
    parts := [{ id := "uuid", partId := "A", name := "A", dimensions := ⟨80, 80⟩,
                x := 0, y := 0, rotated := false, canRotate := false, pvcEdges := none },
              qC8]
    cutLines := [⟨0, 0, 0, 100, 100⟩, ⟨80, 0, 80, 100, 100⟩, ⟨0, 0, 100, 0, 100⟩,
                 ⟨0, 80, 100, 80, 100⟩, ⟨95, 0, 95, 100, 100⟩, ⟨0, 95, 100, 95, 100⟩]
    remainders := [⟨80, 0, 20, 80, 1600, "First part (A) - Right"⟩,
                   ⟨95, 80, 5, 15, 75, "B"⟩,
                   ⟨0, 95, 100, 5, 500, "B"⟩] }

/-- Erase the uuid-valued instance id of a `placement.ts` part instance. -/
def eraseInst (p : P1.PartInstance) : P1.PartInstance := { p with id := "" }

/-- Erase the uuid-valued id of a placed part. -/
def erasePlaced (q : P1.PlacedPart) : P1.PlacedPart := { q with id := "" }

/-- Erase all placed-part ids of a packed sheet. -/
def eraseBoard (b : P1.ChipboardWithParts) : P1.ChipboardWithParts :=
  { b with parts := b.parts.map erasePlaced }

/-- Erase all placed-part ids of a placement result. -/
def eraseResult (r : P1.PlacementResult) : P1.PlacementResult :=
  { r with chipboards := r.chipboards.map eraseBoard }

/-- The y-span a part contributes to a vertical cut coordinate. -/
def spanV (p : P2.PlacedPart) : CutOpt.Segment := ⟨p.y, p.y + p.dimensions.height⟩

/-- The x-span a part contributes to a horizontal cut coordinate. -/
def spanH (p : P2.PlacedPart) : CutOpt.Segment := ⟨p.x, p.x + p.dimensions.width⟩

/-- The (coordinate, segment) insertion sequence of the vertical collection
loop, flattened part by part. -/
def pairsV (parts : List P2.PlacedPart) : List (ℚ × CutOpt.Segment) :=
  parts.flatMap fun p => [(p.x, spanV p), (p.x + p.dimensions.width, spanV p)]

/-- The (coordinate, segment) insertion sequence of the horizontal collection
loop. -/
def pairsH (parts : List P2.PlacedPart) : List (ℚ × CutOpt.Segment) :=
  parts.flatMap fun p => [(p.y, spanH p), (p.y + p.dimensions.height, spanH p)]

/-- Folding an insertion sequence into the JavaScript `Map`. -/
def foldPairs (L : List (ℚ × CutOpt.Segment)) : List (ℚ × List CutOpt.Segment) :=
  L.foldl (fun m e => CutOpt.addCutSegment m e.1 e.2) []

/-- First-occurrence deduplication, the key order of a JavaScript `Map`. -/
def distinctFirst (l : List ℚ) : List ℚ := l.foldl setAdd []

/-- All segments inserted at coordinate `k`, in insertion order. -/
def groupAt (L : List (ℚ × CutOpt.Segment)) (k : ℚ) : List CutOpt.Segment :=
  (L.filter fun e => decide (e.1 = k)).map Prod.snd

/-- Spec-side (claim C6): the y-spans of the parts that motivate a vertical
cut at `x`, the parts whose horizontal extent starts or ends there. -/
def motivatedV (parts : List P2.PlacedPart) (x : ℚ) : List CutOpt.Segment :=
  (parts.filter fun p =>
    decide (p.x = x) || decide (p.x + p.dimensions.width = x)).map spanV

/-- Spec-side (claim C6): the x-spans of the parts that motivate a horizontal
cut at `y`. -/
def motivatedH (parts : List P2.PlacedPart) (y : ℚ) : List CutOpt.Segment :=
  (parts.filter fun p =>
    decide (p.y = y) || decide (p.y + p.dimensions.height = y)).map spanH

/-- Spec-side (claim C6): the distinct part-edge x-coordinates. -/
def xEdgeCoords (parts : List P2.PlacedPart) : List ℚ :=
  distinctFirst (parts.flatMap fun p => [p.x, p.x + p.dimensions.width])

/-- Spec-side (claim C6): the distinct part-edge y-coordinates. -/
def yEdgeCoords (parts : List P2.PlacedPart) : List ℚ :=
  distinctFirst (parts.flatMap fun p => [p.y, p.y + p.dimensions.height])

/-- One vertical line per merged y-range at coordinate `x`, clipped to the
usable rectangle and dropped when empty. -/
def emitV (cb : Chipboard) (x : ℚ) (s : CutOpt.Segment) : List CutLine :=
  if min s.stop (cb.dimensions.height - cb.margin) > max s.start cb.margin then
    [⟨x, max s.start cb.margin, x, min s.stop (cb.dimensions.height - cb.margin),
      min s.stop (cb.dimensions.height - cb.margin) - max s.start cb.margin⟩]
  else []

/-- One horizontal line per merged x-range at coordinate `y`. -/
def emitH (cb : Chipboard) (y : ℚ) (s : CutOpt.Segment) : List CutLine :=
  if min s.stop (cb.dimensions.width - cb.margin) > max s.start cb.margin then
    [⟨max s.start cb.margin, y, min s.stop (cb.dimensions.width - cb.margin), y,
      min s.stop (cb.dimensions.width - cb.margin) - max s.start cb.margin⟩]
  else []

/-- Spec-side (claim C6): the vertical lines, one per distinct in-range
part-edge x-coordinate and maximal merged group of motivating y-spans. -/
def specVLines (parts : List P2.PlacedPart) (cb : Chipboard) : List CutLine :=
  (xEdgeCoords parts).flatMap fun x =>
    if x < cb.margin ∨ x > cb.dimensions.width - cb.margin then []
    else (CutOpt.mergeSegments (motivatedV parts x)).flatMap (emitV cb x)

/-- Spec-side (claim C6): the horizontal lines. -/
def specHLines (parts : List P2.PlacedPart) (cb : Chipboard) : List CutLine :=
  (yEdgeCoords parts).flatMap fun y =>
    if y < cb.margin ∨ y > cb.dimensions.height - cb.margin then []
    else (CutOpt.mergeSegments (motivatedH parts y)).flatMap (emitH cb y)

/-- Spec-side (claim C6): the full described cut-line list. -/
def cutLinesSpec (parts : List P2.PlacedPart) (cb : Chipboard) : List CutLine :=
  specVLines parts cb ++ specHLines parts cb

namespace P1

theorem optLoop_nil (cb : Chipboard) (k : ℚ) (fuel : ℕ) (acc : List ChipboardWithParts) :
    optLoop cb k fuel [] acc = some acc := by
  rw [optLoop.eq_def]; simp

theorem optLoop_cons_zero (cb : Chipboard) (k : ℚ) (p : PartInstance)
    (ps : List PartInstance) (acc : List ChipboardWithParts) :
    optLoop cb k 0 (p :: ps) acc = none := by
  rw [optLoop.eq_def]; simp

theorem optLoop_cons (cb : Chipboard) (k : ℚ) (fuel : ℕ) (p : PartInstance)
    (ps : List PartInstance) (acc : List ChipboardWithParts) (h : ¬ fuel = 0) :
    optLoop cb k fuel (p :: ps) acc =
      optLoop cb k (fuel - 1) (packChipboard cb (p :: ps) k).2
        (acc ++ [(packChipboard cb (p :: ps) k).1]) := by
  rw [optLoop.eq_def]; simp [h]

end P1

namespace P2

theorem innerLoop_empty (cb : Chipboard) (k : ℚ) (count : ℕ)
    (fb : List Board) (rem : List Remainder) (pl : List PlacedPart) :
    innerLoop cb k count ⟨[], fb, rem, pl⟩ = ⟨[], fb, rem, pl⟩ := by
  rw [innerLoop.eq_def]; simp

theorem innerLoop_cons (cb : Chipboard) (k : ℚ) (count : ℕ) (p : PartInstance)
    (ps : List PartInstance) (fb : List Board) (rem : List Remainder)
    (pl : List PlacedPart) (h : count < 10000) :
    innerLoop cb k count ⟨p :: ps, fb, rem, pl⟩ =
      match innerBody cb k ⟨p :: ps, fb, rem, pl⟩ with
      | none => ⟨p :: ps, fb, rem, pl⟩
      | some st' => innerLoop cb k (count + 1) st' := by
  rw [innerLoop.eq_def]
  simp [h]

end P2

set_option maxRecDepth 4000 in
/-- Claim C1.  The spec asserts that `optimizePlacement` never produces two
overlapping parts on one sheet and keeps abutting parts at least the kerf
apart.  The code violates this: on `partsOverlapBug` with kerf 2 the
alignment heuristic moves part D to a cut coordinate inside its free
rectangle, `splitRectangle` then emits a free rectangle protruding past the
parent into already-occupied space, and part E is placed at (64, 62) inside
part B placed at (62, 0) of size 36 × 90 — two distinct parts on the first
sheet overlap. -/
theorem c1_no_overlap_violated :
    Option.any (fun r => P1.hasOverlappingPair r.chipboards)
      (P1.optimizePlacement 3 uuidConst sheet100 partsOverlapBug 2) = true := by
  norm_num [P1.optimizePlacement, P1.expandParts, P1.expandFrom, P1.expandOne,
    P1.sortByArea, P1.areaLt, jsSortBy, insertOrdered,
    P1.optLoop_nil, P1.optLoop_cons, P1.optLoop_cons_zero,
    P1.packChipboard, P1.packGo, P1.findBestPlacement, P1.scanRectangles,
    P1.considerOrientation, P1.findAlignedPosition, P1.firstAlignedCut, sortedAsc,
    setAdd, P1.splitRectangle, P1.removeFirst,
    P1.hasOverlappingPair, P1.overlaps, uuidConst, sheet100, partsOverlapBug, onePart,
    List.range_succ, List.any, Option.any]
  all_goals decide

set_option maxRecDepth 4000 in
/-- Claim C2.  The spec asserts that every placed part lies inside the usable
rectangle of its sheet.  The code violates this: on `partsBoundsBug` with
kerf 5, after part A (100 × 40) fills the sheet width, `splitRectangle`
creates a top free rectangle of width `100 + kerf = 105` that protrudes past
the sheet, and part B (102 × 30) is then placed at (0, 45) with right edge at
x = 102 > 100. -/
theorem c2_bounds_violated :
    Option.any (fun r => P1.hasOutOfBoundsPart r.chipboards)
      (P1.optimizePlacement 3 uuidConst sheet100 partsBoundsBug 5) = true := by
  norm_num [P1.optimizePlacement, P1.expandParts, P1.expandFrom, P1.expandOne,
    P1.sortByArea, P1.areaLt, jsSortBy, insertOrdered,
    P1.optLoop_nil, P1.optLoop_cons, P1.optLoop_cons_zero,
    P1.packChipboard, P1.packGo, P1.findBestPlacement, P1.scanRectangles,
    P1.considerOrientation, P1.findAlignedPosition, P1.firstAlignedCut, sortedAsc,
    setAdd, P1.splitRectangle, P1.removeFirst,
    P1.hasOutOfBoundsPart, P1.withinUsable, uuidConst, sheet100, partsBoundsBug, onePart,
    List.range_succ, List.any, Option.any]

/-- Packing the never-fitting instance on a fresh sheet places nothing and
returns the same single remaining instance: one full sheet attempt on an
empty sheet makes no progress. -/
theorem packChipboard_neverFit_fixpoint :
    P1.packChipboard sheet100 (P1.sortByArea (P1.expandParts partsNeverFit uuidConst)) 0 =
      (⟨sheet100, [], []⟩, P1.sortByArea (P1.expandParts partsNeverFit uuidConst)) := by
  norm_num [P1.expandParts, P1.expandFrom, P1.expandOne, P1.sortByArea, P1.areaLt,
    jsSortBy, insertOrdered, P1.packChipboard, P1.packGo, P1.findBestPlacement,
    P1.scanRectangles, P1.considerOrientation, sortedAsc, setAdd,
    P1.generateCutLines, uuidConst, partsNeverFit, onePart, sheet100,
    List.range_succ]

/-- Claim C3.  The spec requires the orchestrator to terminate on every input
by detecting that the unplaced set is unchanged after a sheet attempt that
started empty.  The `while (remainingParts.length > 0)` loop of
`optimizePlacement` in `placement.ts` has no such detection and no bound at
all: on `partsNeverFit` (a 200 × 200 part on a 100 × 100 sheet) every
sheet-packing pass returns the unplaced set unchanged, so the loop never
terminates — in the fuel model, no amount of fuel makes it finish. -/
theorem c3_orchestrator_never_terminates :
    ∀ fuel : ℕ, P1.optimizePlacement fuel uuidConst sheet100 partsNeverFit 0 = none := by
  have key : ∀ (fuel : ℕ) (acc : List P1.ChipboardWithParts),
      P1.optLoop sheet100 0 fuel
        (P1.sortByArea (P1.expandParts partsNeverFit uuidConst)) acc = none := by
    have hone : P1.sortByArea (P1.expandParts partsNeverFit uuidConst) =
        [⟨"uuid", "X", "X", ⟨200, 200⟩, false⟩] := by
      norm_num [P1.expandParts, P1.expandFrom, P1.expandOne, P1.sortByArea, P1.areaLt,
        jsSortBy, insertOrdered, uuidConst, partsNeverFit, onePart, List.range_succ]
      all_goals decide
    rw [hone]
    intro fuel
    induction fuel with
    | zero =>
        intro acc
        exact P1.optLoop_cons_zero sheet100 0 _ _ acc
    | succ n ih =>
        intro acc
        rw [P1.optLoop_cons sheet100 0 (n + 1) _ _ acc (Nat.succ_ne_zero n)]
        have hfix := packChipboard_neverFit_fixpoint
        rw [hone] at hfix
        simp only [hfix, Nat.add_sub_cancel]
        exact ih _
  intro fuel
  simp only [P1.optimizePlacement, key fuel [], Option.map_none']

theorem insertOrdered_perm (lt : α → α → Bool) (x : α) :
    ∀ l : List α, (insertOrdered lt x l).Perm (x :: l) := by
  intro l
  induction l with
  | nil => exact List.Perm.refl _
  | cons y ys ih =>
      by_cases h : lt x y = true
      · simp [insertOrdered, h]
      · simp only [insertOrdered, h, if_false]
        exact (ih.cons y).trans (List.Perm.swap x y ys)

theorem mem_insertOrdered {lt : α → α → Bool} {x z : α} {l : List α} :
    z ∈ insertOrdered lt x l → z = x ∨ z ∈ l := by
  intro hz
  have := (insertOrdered_perm lt x l).mem_iff.mp hz
  simpa using this

theorem jsSortBy_perm (lt : α → α → Bool) (l : List α) : (jsSortBy lt l).Perm l := by
  suffices h : ∀ (l acc : List α),
      (l.foldl (fun acc x => insertOrdered lt x acc) acc).Perm (acc ++ l) by
    simpa using h l []
  intro l
  induction l with
  | nil => intro acc; simp
  | cons x xs ih =>
      intro acc
      have h1 : (x :: xs).foldl (fun acc x => insertOrdered lt x acc) acc
          = xs.foldl (fun acc x => insertOrdered lt x acc) (insertOrdered lt x acc) := rfl
      rw [h1]
      refine ((ih _).trans ?_)
      exact ((insertOrdered_perm lt x acc).append_right xs).trans List.perm_middle.symm

theorem pairwise_insertOrdered {lt : α → α → Bool}
    (hasym : ∀ a b, lt a b = true → lt b a = false)
    (htrans : ∀ a b c, lt a b = true → lt b c = true → lt a c = true)
    (x : α) : ∀ l : List α, l.Pairwise (fun a b => lt b a = false) →
      (insertOrdered lt x l).Pairwise (fun a b => lt b a = false) := by
  intro l
  induction l with
  | nil => intro _; simp [insertOrdered]
  | cons y ys ih =>
      intro h
      rcases List.pairwise_cons.mp h with ⟨hy, hys⟩
      by_cases hxy : lt x y = true
      · simp only [insertOrdered, hxy, if_true]
        refine List.pairwise_cons.mpr ⟨?_, h⟩
        intro z hz
        rcases List.mem_cons.mp hz with rfl | hz'
        · exact hasym _ _ hxy
        · cases hzx : lt z x with
          | false => rfl
          | true =>
              have : lt z y = true := htrans _ _ _ hzx hxy
              rw [hy z hz'] at this
              exact absurd this (by simp)
      · have hxy' : lt x y = false := by simpa using hxy
        simp only [insertOrdered, hxy, if_false]
        refine List.pairwise_cons.mpr ⟨?_, ih hys⟩
        intro z hz
        rcases mem_insertOrdered hz with rfl | hz'
        · exact hxy'
        · exact hy z hz'

theorem jsSortBy_pairwise {lt : α → α → Bool}
    (hasym : ∀ a b, lt a b = true → lt b a = false)
    (htrans : ∀ a b c, lt a b = true → lt b c = true → lt a c = true)
    (l : List α) : (jsSortBy lt l).Pairwise (fun a b => lt b a = false) := by
  suffices h : ∀ (l acc : List α), acc.Pairwise (fun a b => lt b a = false) →
      (l.foldl (fun acc x => insertOrdered lt x acc) acc).Pairwise
        (fun a b => lt b a = false) by
    exact h l [] (by simp)
  intro l
  induction l with
  | nil => intro acc h; exact h
  | cons x xs ih =>
      intro acc h
      exact ih _ (pairwise_insertOrdered hasym htrans x acc h)

theorem lengthLt_asym : ∀ a b, P2.lengthLt a b = true → P2.lengthLt b a = false := by
  intro a b h
  unfold P2.lengthLt at *
  by_cases hw : a.dimensions.width = b.dimensions.width
  · simp [hw] at h ⊢
    linarith
  · simp [hw, Ne.symm hw] at h ⊢
    linarith

theorem lengthLt_trans : ∀ a b c, P2.lengthLt a b = true → P2.lengthLt b c = true →
    P2.lengthLt a c = true := by
  intro a b c hab hbc
  unfold P2.lengthLt at *
  by_cases hab' : a.dimensions.width = b.dimensions.width <;>
    by_cases hbc' : b.dimensions.width = c.dimensions.width <;>
      by_cases hac : a.dimensions.width = c.dimensions.width <;>
        simp_all <;> linarith

/-- Claim C5.  After expanding each part spec into one instance per requested
unit, `optimizePlacement` (the `part_001` engine) attempts the instances in
the order produced by `sortInstances`: the sorted sequence is a permutation
of the expanded one and is ordered primarily by width (the "length")
descending, with ties broken by height descending. -/
theorem c5_instances_sorted_by_length (ps : List ProjectPart) (supply : ℕ → String) :
    (P2.sortInstances (P2.expandParts ps supply)).Perm (P2.expandParts ps supply) ∧
    (P2.sortInstances (P2.expandParts ps supply)).Pairwise (fun a b =>
      b.dimensions.width < a.dimensions.width ∨
      (a.dimensions.width = b.dimensions.width ∧
        b.dimensions.height ≤ a.dimensions.height)) := by
  constructor
  · exact jsSortBy_perm _ _
  · have h := jsSortBy_pairwise lengthLt_asym lengthLt_trans
      (P2.expandParts ps supply)
    refine h.imp ?_
    intro a b hba
    unfold P2.lengthLt at hba
    by_cases hw : b.dimensions.width = a.dimensions.width
    · right
      refine ⟨hw.symm, ?_⟩
      simp [hw] at hba
      linarith
    · left
      simp [hw] at hba
      exact lt_of_le_of_ne hba (by simpa using hw)

/-- Claim C9.  Rotating a part swaps its dimensions and remaps its PVC edges
(new top = old left, new right = old top, new bottom = old right, new left =
old bottom); the part's contribution to the total edge-banding length
computed by `calculateStatistics` is unchanged by this rotation. -/
theorem c9_pvc_length_rotation_invariant (p : P2.PlacedPart) :
    P2.partPvcLength
      { p with
        dimensions := ⟨p.dimensions.height, p.dimensions.width⟩
        pvcEdges := P2.rotatePvc p.pvcEdges
        rotated := true } =
    P2.partPvcLength p := by
  rcases p with ⟨id, pid, nm, ⟨w, h⟩, x, y, rot, cr, pvc⟩
  cases pvc with
  | none => simp [P2.partPvcLength, P2.rotatePvc]
  | some e =>
      rcases e with ⟨t, r, b, l⟩
      cases t <;> cases r <;> cases b <;> cases l <;>
        simp [P2.partPvcLength, P2.rotatePvc] <;> ring

/-- Claim C10.  Recomputing cut lines and remainders from an unchanged
`PlacedPart` sequence is idempotent: the recompute operation depends only on
the chipboard and the part sequence, and leaves both untouched, so a second
recompute returns the identical `SheetLayout`. -/
theorem c10_recompute_idempotent (L : P2.ChipboardWithParts) (k : ℚ) :
    CutOpt.recomputeLayout (CutOpt.recomputeLayout L k) k = CutOpt.recomputeLayout L k := by
  rfl

theorem partsUnion_nil : partsUnion [] = ∅ := rfl

theorem partsUnion_cons (p : P2.PlacedPart) (ps : List P2.PlacedPart) :
    partsUnion (p :: ps) = partSet p ∪ partsUnion ps := rfl

open MeasureTheory in

theorem volume_partSet (p : P2.PlacedPart) :
    volume (partSet p) =
      ENNReal.ofReal (p.dimensions.width : ℝ) * ENNReal.ofReal (p.dimensions.height : ℝ) := by
  rw [partSet, MeasureTheory.Measure.volume_eq_prod, MeasureTheory.Measure.prod_prod,
    Real.volume_Ioo, Real.volume_Ioo]
  congr 1 <;> ring_nf

theorem measurable_partSet (p : P2.PlacedPart) : MeasurableSet (partSet p) :=
  (measurableSet_Ioo).prod measurableSet_Ioo

theorem measurable_partsUnion (l : List P2.PlacedPart) : MeasurableSet (partsUnion l) := by
  induction l with
  | nil => rw [partsUnion_nil]; exact MeasurableSet.empty
  | cons p ps ih => rw [partsUnion_cons]; exact (measurable_partSet p).union ih

theorem disjoint_partSet {p q : P2.PlacedPart} (h : ¬ P2.overlapsP p q) :
    Disjoint (partSet p) (partSet q) := by
  rw [Set.disjoint_left]
  rintro ⟨zx, zy⟩ hp hq
  simp only [partSet, Set.mem_prod, Set.mem_Ioo] at hp hq
  refine h ⟨?_, ?_, ?_, ?_⟩
  · exact_mod_cast hp.1.1.trans hq.1.2
  · exact_mod_cast hq.1.1.trans hp.1.2
  · exact_mod_cast hp.2.1.trans hq.2.2
  · exact_mod_cast hq.2.1.trans hp.2.2

theorem disjoint_partsUnion {p : P2.PlacedPart} {l : List P2.PlacedPart}
    (h : ∀ q ∈ l, ¬ P2.overlapsP p q) : Disjoint (partSet p) (partsUnion l) := by
  induction l with
  | nil => rw [partsUnion_nil]; exact Set.disjoint_empty _
  | cons q qs ih =>
      rw [partsUnion_cons, Set.disjoint_union_right]
      exact ⟨disjoint_partSet (h q (List.mem_cons_self q qs)),
        ih fun r hr => h r (List.mem_cons_of_mem q hr)⟩

open MeasureTheory in

theorem volume_partsUnion (l : List P2.PlacedPart)
    (h : l.Pairwise (fun p q => ¬ P2.overlapsP p q)) :
    volume (partsUnion l) = (l.map (fun p => volume (partSet p))).sum := by
  induction l with
  | nil => simp [partsUnion_nil]
  | cons p ps ih =>
      rcases List.pairwise_cons.mp h with ⟨hp, hps⟩
      rw [partsUnion_cons,
        measure_union (disjoint_partsUnion hp) (measurable_partsUnion ps), ih hps]
      simp

theorem partsUnion_subset (cb : Chipboard) (l : List P2.PlacedPart)
    (h : ∀ p ∈ l, fitsUsable cb p) :
    partsUnion l ⊆
      Set.Icc (cb.margin : ℝ) ((cb.dimensions.width : ℝ) - cb.margin) ×ˢ
        Set.Icc (cb.margin : ℝ) ((cb.dimensions.height : ℝ) - cb.margin) := by
  induction l with
  | nil => rw [partsUnion_nil]; exact Set.empty_subset _
  | cons p ps ih =>
      rw [partsUnion_cons]
      apply Set.union_subset
      · rcases h p (List.mem_cons_self p ps) with ⟨_, _, hx, hy, hxr, hyr⟩
        rintro ⟨zx, zy⟩ hz
        simp only [partSet, Set.mem_prod, Set.mem_Ioo] at hz
        simp only [Set.mem_prod, Set.mem_Icc]
        refine ⟨⟨le_trans (by exact_mod_cast hx) hz.1.1.le, hz.1.2.le.trans ?_⟩,
          ⟨le_trans (by exact_mod_cast hy) hz.2.1.le, hz.2.2.le.trans ?_⟩⟩
        · exact_mod_cast hxr
        · exact_mod_cast hyr
      · exact ih fun q hq => h q (List.mem_cons_of_mem p hq)

theorem sum_areas_nonneg (l : List P2.PlacedPart)
    (hin : ∀ p ∈ l, 0 ≤ p.dimensions.width ∧ 0 ≤ p.dimensions.height) :
    (0:ℚ) ≤ (l.map (fun p => p.dimensions.width * p.dimensions.height)).sum := by
  apply List.sum_nonneg
  intro a ha
  simp only [List.mem_map] at ha
  obtain ⟨q, hq, rfl⟩ := ha
  exact mul_nonneg (hin q hq).1 (hin q hq).2

open MeasureTheory in

theorem ofReal_sum_areas (l : List P2.PlacedPart)
    (hin : ∀ p ∈ l, 0 ≤ p.dimensions.width ∧ 0 ≤ p.dimensions.height) :
    ENNReal.ofReal (((l.map (fun p => p.dimensions.width * p.dimensions.height)).sum : ℚ) : ℝ) =
      (l.map (fun p => volume (partSet p))).sum := by
  induction l with
  | nil => simp
  | cons p ps ih =>
      have hin' : ∀ q ∈ ps, 0 ≤ q.dimensions.width ∧ 0 ≤ q.dimensions.height :=
        fun q hq => hin q (List.mem_cons_of_mem p hq)
      rcases hin p (List.mem_cons_self p ps) with ⟨hw, hh⟩
      have harea : (0:ℝ) ≤ ((p.dimensions.width * p.dimensions.height : ℚ) : ℝ) := by
        exact_mod_cast mul_nonneg hw hh
      have hrest : (0:ℝ) ≤ (((ps.map (fun p => p.dimensions.width * p.dimensions.height)).sum : ℚ) : ℝ) := by
        exact_mod_cast sum_areas_nonneg ps hin'
      rw [List.map_cons, List.sum_cons, List.map_cons, List.sum_cons]
      rw [show (((p.dimensions.width * p.dimensions.height +
          (ps.map (fun p => p.dimensions.width * p.dimensions.height)).sum : ℚ)) : ℝ) =
          ((p.dimensions.width * p.dimensions.height : ℚ) : ℝ) +
          (((ps.map (fun p => p.dimensions.width * p.dimensions.height)).sum : ℚ) : ℝ) by push_cast; ring]
      rw [ENNReal.ofReal_add harea hrest, ih hin', volume_partSet,
        ← ENNReal.ofReal_mul (by exact_mod_cast hw)]
      congr 2
      push_cast
      ring

open MeasureTheory in

theorem area_sum_le (cb : Chipboard) (l : List P2.PlacedPart)
    (hnov : l.Pairwise (fun p q => ¬ P2.overlapsP p q))
    (hin : ∀ p ∈ l, fitsUsable cb p)
    (hpos : 0 ≤ (cb.dimensions.width - 2 * cb.margin) * (cb.dimensions.height - 2 * cb.margin)) :
    (l.map (fun p => p.dimensions.width * p.dimensions.height)).sum ≤
      (cb.dimensions.width - 2 * cb.margin) * (cb.dimensions.height - 2 * cb.margin) := by
  have hin' : ∀ p ∈ l, 0 ≤ p.dimensions.width ∧ 0 ≤ p.dimensions.height :=
    fun p hp => ⟨(hin p hp).1, (hin p hp).2.1⟩
  have key : ENNReal.ofReal (((l.map (fun p => p.dimensions.width * p.dimensions.height)).sum : ℚ) : ℝ) ≤
      ENNReal.ofReal ((((cb.dimensions.width - 2 * cb.margin) *
        (cb.dimensions.height - 2 * cb.margin) : ℚ)) : ℝ) := by
    rw [ofReal_sum_areas l hin', ← volume_partsUnion l hnov]
    refine le_trans (measure_mono (partsUnion_subset cb l hin)) ?_
    rw [MeasureTheory.Measure.volume_eq_prod, MeasureTheory.Measure.prod_prod,
      Real.volume_Icc, Real.volume_Icc]
    rcases le_or_lt 0 ((cb.dimensions.width : ℝ) - cb.margin - cb.margin) with hw | hw
    · rw [← ENNReal.ofReal_mul hw]
      apply ENNReal.ofReal_le_ofReal
      apply le_of_eq
      push_cast
      ring
    · rw [ENNReal.ofReal_eq_zero.mpr hw.le, zero_mul]
      exact zero_le _
  have := (ENNReal.ofReal_le_ofReal_iff (by exact_mod_cast hpos)).mp key
  exact_mod_cast this

theorem round2_bounds {q : ℚ} (h0 : 0 ≤ q) (h1 : q ≤ 100) :
    0 ≤ ((jsRound (q * 100) : ℚ)) / 100 ∧ ((jsRound (q * 100) : ℚ)) / 100 ≤ 100 := by
  unfold jsRound
  constructor
  · apply div_nonneg _ (by norm_num)
    have : (0:ℤ) ≤ ⌊q * 100 + 1/2⌋ := Int.le_floor.mpr (by push_cast; linarith)
    exact_mod_cast this
  · rw [div_le_iff₀ (by norm_num : (0:ℚ) < 100)]
    have hfl : ⌊q * 100 + 1/2⌋ ≤ 10000 := by
      rw [Int.floor_le_iff]
      push_cast
      linarith
    calc ((⌊q * 100 + 1/2⌋ : ℚ)) ≤ 10000 := by exact_mod_cast hfl
      _ = 100 * 100 := by norm_num

/-- Claim C7.  For layouts whose placed parts are pairwise non-overlapping
(in the sense of the repository's own `checkOverlap` test) and lie within the
template's usable rectangle with nonnegative extents, the material efficiency
computed by `recalculateStatistics` satisfies `0 ≤ efficiency ≤ 100`. -/
theorem c7_efficiency_bounded (boards : List P2.ChipboardWithParts) (n : ℕ)
    (cb : Chipboard) (h : ∀ b ∈ boards, validSheet cb b) :
    0 ≤ (CutOpt.recalculateStatistics boards n cb).efficiency ∧
    (CutOpt.recalculateStatistics boards n cb).efficiency ≤ 100 := by
  have heff : (CutOpt.recalculateStatistics boards n cb).efficiency =
      (jsRound ((if ((boards.length : ℚ) *
          (cb.dimensions.width - 2 * cb.margin) * (cb.dimensions.height - 2 * cb.margin)) > 0 then
        (boards.map (fun b =>
          (b.parts.map (fun p => p.dimensions.width * p.dimensions.height)).sum)).sum /
          ((boards.length : ℚ) * (cb.dimensions.width - 2 * cb.margin) *
            (cb.dimensions.height - 2 * cb.margin)) * 100
      else 0) * 100) : ℚ) / 100 := rfl
  set A : ℚ := (boards.map (fun b =>
    (b.parts.map (fun p => p.dimensions.width * p.dimensions.height)).sum)).sum with hA
  set V : ℚ := (boards.length : ℚ) * (cb.dimensions.width - 2 * cb.margin) *
    (cb.dimensions.height - 2 * cb.margin) with hV
  have hbounds : 0 ≤ (if V > 0 then A / V * 100 else 0) ∧
      (if V > 0 then A / V * 100 else 0) ≤ 100 := by
    by_cases hVpos : V > 0
    · have hA0 : 0 ≤ A := by
        rw [hA]
        apply List.sum_nonneg
        intro a ha
        simp only [List.mem_map] at ha
        obtain ⟨b, hb, rfl⟩ := ha
        exact sum_areas_nonneg b.parts fun p hp =>
          ⟨((h b hb).2 p hp).1, ((h b hb).2 p hp).2.1⟩
      have hlen : 0 < (boards.length : ℚ) := by
        rcases Nat.eq_zero_or_pos boards.length with h0 | h0
        · exfalso
          rw [hV, h0] at hVpos
          norm_num at hVpos
        · exact_mod_cast h0
      have hprod : 0 < (cb.dimensions.width - 2 * cb.margin) *
          (cb.dimensions.height - 2 * cb.margin) := by
        by_contra hle
        push_neg at hle
        have : V ≤ 0 := by
          rw [hV, mul_assoc]
          exact mul_nonpos_of_nonneg_of_nonpos hlen.le hle
        linarith
      have hAV : A ≤ V := by
        have hboard : ∀ x ∈ boards.map (fun b =>
            (b.parts.map (fun p => p.dimensions.width * p.dimensions.height)).sum),
            x ≤ (cb.dimensions.width - 2 * cb.margin) * (cb.dimensions.height - 2 * cb.margin) := by
          intro x hx
          simp only [List.mem_map] at hx
          obtain ⟨b, hb, rfl⟩ := hx
          exact area_sum_le cb b.parts (h b hb).1 (h b hb).2 hprod.le
        have := List.sum_le_card_nsmul _ _ hboard
        rw [List.length_map] at this
        rw [hA, hV, mul_assoc]
        calc (boards.map _).sum ≤ _ := this
          _ = (boards.length : ℚ) * ((cb.dimensions.width - 2 * cb.margin) *
              (cb.dimensions.height - 2 * cb.margin)) := by
            rw [nsmul_eq_mul]
      rw [if_pos hVpos]
      constructor
      · positivity
      · have : A / V ≤ 1 := (div_le_one hVpos).mpr hAV
        linarith
    · rw [if_neg hVpos]
      norm_num
  rw [heff]
  exact round2_bounds hbounds.1 hbounds.2

theorem c7_efficiency_bounded_witness :
    (∀ b ∈ [fullBoard], validSheet sheet100 b) ∧
    (0 ≤ (CutOpt.recalculateStatistics [fullBoard] 1 sheet100).efficiency ∧
      (CutOpt.recalculateStatistics [fullBoard] 1 sheet100).efficiency ≤ 100) := by
  have hh : ∀ b ∈ [fullBoard], validSheet sheet100 b := by
    simp [validSheet, fitsUsable, fullBoard, fullPart, sheet100]
  exact ⟨hh, c7_efficiency_bounded [fullBoard] 1 sheet100 hh⟩

theorem orchGo_nil (cb : Chipboard) (k : ℚ) (count : ℕ)
    (acc : List P2.ChipboardWithParts) :
    P2.orchGo cb k count [] acc = (acc, []) := by
  rw [P2.orchGo.eq_def]; simp

theorem orchGo_stop (cb : Chipboard) (k : ℚ) (count : ℕ) (first : P2.PartInstance)
    (rest : List P2.PartInstance) (acc : List P2.ChipboardWithParts)
    (h : ¬ count < 1000) :
    P2.orchGo cb k count (first :: rest) acc = (acc, first :: rest) := by
  rw [P2.orchGo.eq_def]; simp [h]

theorem orchGo_cons (cb : Chipboard) (k : ℚ) (count : ℕ) (first : P2.PartInstance)
    (rest : List P2.PartInstance) (acc : List P2.ChipboardWithParts)
    (h : count < 1000) :
    P2.orchGo cb k count (first :: rest) acc =
      P2.orchGo cb k (count + 1) (P2.createChipboardHorizontal cb first rest k).2
        (acc ++ [(P2.createChipboardHorizontal cb first rest k).1]) := by
  rw [P2.orchGo.eq_def]; simp [h]

theorem scanBoards_orient {Q : P2.Orient → Prop} (cb : Chipboard) (w h : ℚ) (rot : Bool)
    (hnew : Q ⟨w, h, rot⟩) :
    ∀ (boards : List P2.Board) (j : ℕ) (best : Option (ℚ × ℕ × P2.Orient)),
      (∀ r i o, best = some (r, i, o) → Q o) →
      ∀ r i o, P2.scanBoards cb w h rot boards j best = some (r, i, o) → Q o := by
  intro boards
  induction boards with
  | nil =>
      intro j best hbest r i o hout
      simp only [P2.scanBoards] at hout
      exact hbest r i o hout
  | cons b bs ih =>
      intro j best hbest r i o hout
      simp only [P2.scanBoards] at hout
      refine ih (j + 1) _ ?_ r i o hout
      intro r' i' o' hbo
      split at hbo
      · split at hbo
        · simp only [Option.some.injEq, Prod.mk.injEq] at hbo
          exact hbo.2.2 ▸ hnew
        · rename_i br bj bo
          split at hbo
          · simp only [Option.some.injEq, Prod.mk.injEq] at hbo
            exact hbo.2.2 ▸ hnew
          · simp only [Option.some.injEq, Prod.mk.injEq] at hbo
            exact hbo.2.2 ▸ hbest br bj bo rfl
      · exact hbest r' i' o' hbo

theorem tryParts_spec (cb : Chipboard) (boards : List P2.Board) :
    ∀ (parts : List P2.PartInstance) (i0 i : ℕ) (part : P2.PartInstance)
      (o : P2.Orient) (j : ℕ),
      P2.tryParts cb boards parts i0 = some (i, part, o, j) →
      part ∈ parts ∧
      (o.rotated = true → part.canRotate = true ∧ o.width = part.dimensions.height ∧
        o.height = part.dimensions.width) := by
  intro parts
  induction parts with
  | nil =>
      intro i0 i part o j hout
      simp [P2.tryParts] at hout
  | cons p ps ih =>
      intro i0 i part o j hout
      simp only [P2.tryParts] at hout
      have hs1 : ∀ r i o,
          P2.scanBoards cb p.dimensions.width p.dimensions.height false boards 0 none =
            some (r, i, o) →
          (o.rotated = true → p.canRotate = true ∧ o.width = p.dimensions.height ∧
            o.height = p.dimensions.width) := by
        refine scanBoards_orient
          (Q := fun o => o.rotated = true → p.canRotate = true ∧
            o.width = p.dimensions.height ∧ o.height = p.dimensions.width)
          cb p.dimensions.width p.dimensions.height false ?_ boards 0 none ?_
        · intro habs
          simp at habs
        · intro r i o h
          simp at h
      split at hout
      · rename_i r jj oo heq
        simp only [Option.some.injEq, Prod.mk.injEq] at hout
        obtain ⟨rfl, rfl, rfl, rfl⟩ := hout
        refine ⟨List.mem_cons_self p ps, ?_⟩
        by_cases hcr : p.canRotate = true
        · rw [if_pos hcr] at heq
          refine scanBoards_orient cb p.dimensions.height p.dimensions.width true
            ?_ boards 0 _ hs1 r jj oo heq
          intro _
          exact ⟨hcr, rfl, rfl⟩
        · rw [if_neg hcr] at heq
          exact hs1 r jj oo heq
      · rename_i heq
        obtain ⟨hmem, hrot⟩ := ih (i0 + 1) i part o j hout
        exact ⟨List.mem_cons_of_mem p hmem, hrot⟩

theorem innerBody_inv {I : P2.PartInstance → Prop} (cb : Chipboard) (k : ℚ)
    (st st' : P2.InnerState)
    (hparts : ∀ p ∈ st.partsToProcess, I p)
    (hplaced : ∀ q ∈ st.placedParts, ∃ inst, I inst ∧ placedFrom inst q)
    (hbody : P2.innerBody cb k st = some st') :
    (∀ p ∈ st'.partsToProcess, I p) ∧
    (∀ q ∈ st'.placedParts, ∃ inst, I inst ∧ placedFrom inst q) := by
  simp only [P2.innerBody] at hbody
  split at hbody
  · exact absurd hbody (by simp)
  · split at hbody
    · exact absurd hbody (by simp)
    · rename_i i part o j heq
      simp only [Option.some.injEq] at hbody
      subst hbody
      obtain ⟨hmem, hrot⟩ := tryParts_spec cb _ _ 0 i part o j heq
      constructor
      · intro p hp
        exact hparts p (List.mem_of_mem_eraseIdx hp)
      · intro q hq
        rcases List.mem_append.mp hq with hq | hq
        · exact hplaced q hq
        · rw [List.mem_singleton] at hq
          subst hq
          refine ⟨part, hparts part hmem, rfl, ?_⟩
        
          intro hr
          obtain ⟨hcr, hw, hh⟩ := hrot hr
          refine ⟨hcr, ?_, ?_⟩
          · show (⟨o.width, o.height⟩ : Dimensions) = _
            rw [hw, hh]
          · show (if o.rotated = true then P2.rotatePvc part.pvcEdges else part.pvcEdges) = _
            rw [if_pos hr]

theorem innerLoop_inv {I : P2.PartInstance → Prop} (cb : Chipboard) (k : ℚ) :
    ∀ (fuel count : ℕ), 10000 - count ≤ fuel → ∀ st : P2.InnerState,
      (∀ p ∈ st.partsToProcess, I p) →
      (∀ q ∈ st.placedParts, ∃ inst, I inst ∧ placedFrom inst q) →
      (∀ p ∈ (P2.innerLoop cb k count st).partsToProcess, I p) ∧
      (∀ q ∈ (P2.innerLoop cb k count st).placedParts,
        ∃ inst, I inst ∧ placedFrom inst q) := by
  intro fuel
  induction fuel with
  | zero =>
      intro count hc st h1 h2
      have hcnt : ¬ count < 10000 := by omega
      rw [P2.innerLoop.eq_def]
      split
      · exact ⟨h1, h2⟩
      · exact ⟨h1, h2⟩
  | succ n ihn =>
      intro count hc st h1 h2
      rw [P2.innerLoop.eq_def]
      split
      · exact ⟨h1, h2⟩
      · split
        · exact ⟨h1, h2⟩
        · rename_i hcond
          have hcnt : count < 10000 := by omega
          cases hb : P2.innerBody cb k st with
          | none => exact ⟨h1, h2⟩
          | some st' =>
              obtain ⟨h1', h2'⟩ := innerBody_inv cb k st st' h1 h2 hb
              exact ihn (count + 1) (by omega) st' h1' h2'

theorem createChipboard_inv {I : P2.PartInstance → Prop} (cb : Chipboard)
    (first : P2.PartInstance) (rest : List P2.PartInstance) (k : ℚ)
    (hI : I first) (hrest : ∀ p ∈ rest, I p) :
    (∀ q ∈ (P2.createChipboardHorizontal cb first rest k).1.parts,
      ∃ inst, I inst ∧ placedFrom inst q) ∧
    (∀ p ∈ (P2.createChipboardHorizontal cb first rest k).2, I p) := by
  have hinit2 : ∀ q ∈ [P2.firstPlaced cb first], ∃ inst, I inst ∧ placedFrom inst q := by
    intro q hq
    rw [List.mem_singleton] at hq
    subst hq
    refine ⟨first, hI, rfl, ?_⟩
    intro hr
    simp [P2.firstPlaced] at hr
  simp only [P2.createChipboardHorizontal]
  split
  · constructor
    · intro q hq
      simp at hq
    · intro p hp
      rcases List.mem_cons.mp hp with rfl | hp'
      · exact hI
      · exact hrest p hp'
  · constructor
    · intro q hq
      exact (innerLoop_inv (I := I) cb k 10000 0 (by omega) _ hrest hinit2).2 q hq
    · intro p hp
      exact (innerLoop_inv (I := I) cb k 10000 0 (by omega) _ hrest hinit2).1 p hp

theorem orchGo_inv {I : P2.PartInstance → Prop} (cb : Chipboard) (k : ℚ) :
    ∀ (fuel count : ℕ), 1000 - count ≤ fuel →
      ∀ (remaining : List P2.PartInstance) (acc : List P2.ChipboardWithParts),
      (∀ p ∈ remaining, I p) →
      (∀ b ∈ acc, ∀ q ∈ b.parts, ∃ inst, I inst ∧ placedFrom inst q) →
      ∀ b ∈ (P2.orchGo cb k count remaining acc).1, ∀ q ∈ b.parts,
        ∃ inst, I inst ∧ placedFrom inst q := by
  intro fuel
  induction fuel with
  | zero =>
      intro count hc remaining acc h1 h2
      cases remaining with
      | nil => rw [orchGo_nil]; exact h2
      | cons first rest => rw [orchGo_stop cb k count first rest acc (by omega)]; exact h2
  | succ n ihn =>
      intro count hc remaining acc h1 h2
      cases remaining with
      | nil => rw [orchGo_nil]; exact h2
      | cons first rest =>
          by_cases hcnt : count < 1000
          · rw [orchGo_cons cb k count first rest acc hcnt]
            obtain ⟨hplaced, hrem⟩ := createChipboard_inv (I := I) cb first rest k
              (h1 first (List.mem_cons_self first rest))
              (fun p hp => h1 p (List.mem_cons_of_mem first hp))
            refine ihn (count + 1) (by omega) _ _ hrem ?_
            intro b hb q hq
            rcases List.mem_append.mp hb with hb | hb
            · exact h2 b hb q hq
            · rw [List.mem_singleton] at hb
              subst hb
              exact hplaced q hq
          · rw [orchGo_stop cb k count first rest acc hcnt]
            exact h2

theorem expandFrom_spec (supply : ℕ → String) :
    ∀ (l : List ProjectPart) (n : ℕ) (inst : P2.PartInstance),
      inst ∈ P2.expandFrom l supply n →
      ∃ spec ∈ l, inst.partId = spec.id ∧ inst.canRotate = spec.canRotate ∧
        inst.dimensions = spec.dimensions ∧ inst.pvcEdges = spec.pvcEdges := by
  intro l
  induction l with
  | nil =>
      intro n inst h
      simp [P2.expandFrom] at h
  | cons p ps ih =>
      intro n inst h
      rw [P2.expandFrom, List.mem_append] at h
      rcases h with h | h
      · refine ⟨p, List.mem_cons_self p ps, ?_⟩
        simp only [P2.expandOne, List.mem_map] at h
        obtain ⟨i, _, rfl⟩ := h
        exact ⟨rfl, rfl, rfl, rfl⟩
      · obtain ⟨spec, hs, hprops⟩ := ih (n + p.count) inst h
        exact ⟨spec, List.mem_cons_of_mem p hs, hprops⟩

/-- Claim C8.  In every result of the `part_001` `optimizePlacement`, each
placed part originates from an input part spec (same `partId`); if it is
placed rotated then that spec allows rotation, the placed dimensions are the
spec's width/height swapped, and the PVC edges are remapped new top = old
left, new right = old top, new bottom = old right, new left = old bottom. -/
theorem c8_rotation_legal (supply : ℕ → String) (cb : Chipboard)
    (ps : List ProjectPart) (k : ℚ) :
    ∀ b ∈ (P2.optimizePlacement supply cb ps k).chipboards, ∀ q ∈ b.parts,
      ∃ spec ∈ ps, q.partId = spec.id ∧
        (q.rotated = true → spec.canRotate = true ∧
          q.dimensions = ⟨spec.dimensions.height, spec.dimensions.width⟩ ∧
          q.pvcEdges = P2.rotatePvc spec.pvcEdges) := by
  intro b hb q hq
  have hsorted : ∀ inst ∈ P2.sortInstances (P2.expandParts ps supply),
      ∃ spec ∈ ps, inst.partId = spec.id ∧ inst.canRotate = spec.canRotate ∧
        inst.dimensions = spec.dimensions ∧ inst.pvcEdges = spec.pvcEdges := by
    intro inst hinst
    exact expandFrom_spec supply ps 0 inst
      ((jsSortBy_perm P2.lengthLt (P2.expandParts ps supply)).mem_iff.mp hinst)
  have hmain := orchGo_inv
    (I := fun inst => ∃ spec ∈ ps, inst.partId = spec.id ∧
      inst.canRotate = spec.canRotate ∧ inst.dimensions = spec.dimensions ∧
      inst.pvcEdges = spec.pvcEdges)
    cb k 1000 0 (by omega)
    (P2.sortInstances (P2.expandParts ps supply)) [] hsorted (by simp)
  have hb' : b ∈ (P2.orchGo cb k 0 (P2.sortInstances (P2.expandParts ps supply)) []).1 := hb
  obtain ⟨inst, ⟨spec, hspecmem, hid, hcr, hdims, hpvc⟩, hpfrom⟩ := hmain b hb' q hq
  refine ⟨spec, hspecmem, ?_, ?_⟩
  · rw [hpfrom.1, hid]
  · intro hr
    obtain ⟨hcr', hd, hp⟩ := hpfrom.2 hr
    rw [hcr] at hcr'
    rw [hdims] at hd
    rw [hpvc] at hp
    exact ⟨hcr', hd, hp⟩

set_option maxRecDepth 4000 in
theorem evalC8 : (P2.optimizePlacement uuidConst sheet100 partsC8 0).chipboards = [boardC8] := by
  norm_num [partsC8, qC8, boardC8, onePart, sheet100, uuidConst,
    P2.optimizePlacement, P2.expandParts, P2.expandFrom, P2.expandOne, P2.displayName,
    P2.sortInstances, jsSortBy, insertOrdered, P2.lengthLt,
    orchGo_cons, orchGo_nil, P2.createChipboardHorizontal, P2.firstPlaced,
    P2.innerLoop_cons, P2.innerLoop_empty, P2.innerBody, P2.cappedBoards, P2.tryParts, P2.scanBoards,
    P2.minOver, P2.removeRemainder, P2.newOffcuts, P2.offcutBoards, P2.boardAreaLt, P2.boardLt,
    P2.rotatePvc, P2.generateCutLines, P2.addCut, setAdd, sortedAsc, axisLength,
    List.cons_ne_nil]
  all_goals decide

/-- Witness for C8: on the concrete job `partsC8` the engine places part B
rotated, and the rotation-legality theorem instantiates to it. -/
theorem c8_rotation_legal_witness :
    boardC8 ∈ (P2.optimizePlacement uuidConst sheet100 partsC8 0).chipboards ∧
    qC8 ∈ boardC8.parts ∧
    ∃ spec ∈ partsC8, qC8.partId = spec.id ∧
      (qC8.rotated = true → spec.canRotate = true ∧
        qC8.dimensions = ⟨spec.dimensions.height, spec.dimensions.width⟩ ∧
        qC8.pvcEdges = P2.rotatePvc spec.pvcEdges) := by
  have hb : boardC8 ∈ (P2.optimizePlacement uuidConst sheet100 partsC8 0).chipboards := by
    rw [evalC8]; exact List.mem_singleton_self boardC8
  have hq : qC8 ∈ boardC8.parts := by
    simp [boardC8]
  exact ⟨hb, hq, c8_rotation_legal uuidConst sheet100 partsC8 0 boardC8 hb qC8 hq⟩

theorem expandFrom_erase (s : ℕ → String) :
    ∀ (l : List ProjectPart) (n : ℕ),
      (P1.expandFrom l s n).map eraseInst = P1.expandFrom l (fun _ => "") n := by
  intro l
  induction l with
  | nil => intro n; rfl
  | cons p ps ih =>
      intro n
      simp only [P1.expandFrom, List.map_append, ih]
      congr 1
      rw [P1.expandOne, P1.expandOne, List.map_map]
      apply List.map_congr_left
      intro i _
      rfl

theorem insertOrdered_map (f : α → α) (lt : α → α → Bool)
    (h : ∀ a b, lt (f a) (f b) = lt a b) (x : α) :
    ∀ l : List α, insertOrdered lt (f x) (l.map f) = (insertOrdered lt x l).map f := by
  intro l
  induction l with
  | nil => rfl
  | cons y ys ih =>
      by_cases hxy : lt x y
      · simp [insertOrdered, h x y, hxy]
      · simp [insertOrdered, h x y, hxy, ih]

theorem jsSortBy_map (f : α → α) (lt : α → α → Bool)
    (h : ∀ a b, lt (f a) (f b) = lt a b) (l : List α) :
    jsSortBy lt (l.map f) = (jsSortBy lt l).map f := by
  suffices hgen : ∀ (l acc : List α),
      (l.map f).foldl (fun a x => insertOrdered lt x a) (acc.map f) =
        (l.foldl (fun a x => insertOrdered lt x a) acc).map f by
    exact hgen l []
  intro l
  induction l with
  | nil => intro acc; rfl
  | cons y ys ih =>
      intro acc
      simp only [List.map_cons, List.foldl_cons]
      rw [insertOrdered_map f lt h y acc, ih]

theorem scanRectangles_erase (p : P1.PartInstance) (hArr vArr : List ℚ) :
    ∀ (free : List P1.Rectangle) (best : Option P1.ScoredPlacement),
      P1.scanRectangles (eraseInst p) hArr vArr free best =
        P1.scanRectangles p hArr vArr free best := by
  obtain ⟨pid, ppart, pname, pdims, pcr⟩ := p
  intro free
  induction free with
  | nil => intro best; rfl
  | cons rect rest ih =>
      intro best
      simp only [P1.scanRectangles, eraseInst]
      exact ih _

theorem findBestPlacement_erase (p : P1.PartInstance) (free : List P1.Rectangle)
    (hc vc : List ℚ) :
    P1.findBestPlacement (eraseInst p) free hc vc = P1.findBestPlacement p free hc vc := by
  simp only [P1.findBestPlacement, scanRectangles_erase]

theorem packGo_erase (k : ℚ) :
    ∀ (ps : List P1.PartInstance) (free : List P1.Rectangle) (hc vc : List ℚ)
      (placed : List P1.PlacedPart) (rem : List P1.PartInstance),
      P1.packGo k (ps.map eraseInst) free hc vc (placed.map erasePlaced)
          (rem.map eraseInst) =
        ((P1.packGo k ps free hc vc placed rem).1.map erasePlaced,
         (P1.packGo k ps free hc vc placed rem).2.map eraseInst) := by
  intro ps
  induction ps with
  | nil => intro free hc vc placed rem; rfl
  | cons p ps ih =>
      intro free hc vc placed rem
      simp only [List.map_cons, P1.packGo, findBestPlacement_erase]
      cases hfb : P1.findBestPlacement p free hc vc with
      | none =>
          have : (rem.map eraseInst) ++ [eraseInst p] = (rem ++ [p]).map eraseInst := by
            simp
          rw [this, ih]
      | some pl =>
          dsimp only
          have hnew : (⟨(eraseInst p).id, (eraseInst p).partId, (eraseInst p).name,
              pl.dimensions, pl.x, pl.y, pl.rotated⟩ : P1.PlacedPart) =
              erasePlaced ⟨p.id, p.partId, p.name, pl.dimensions, pl.x, pl.y, pl.rotated⟩ := rfl
          rw [hnew]
          have : (placed.map erasePlaced) ++
              [erasePlaced ⟨p.id, p.partId, p.name, pl.dimensions, pl.x, pl.y, pl.rotated⟩] =
              (placed ++
                [(⟨p.id, p.partId, p.name, pl.dimensions, pl.x, pl.y, pl.rotated⟩ :
                  P1.PlacedPart)]).map erasePlaced := by
            simp
          rw [this, ih]

theorem generateCutLines_erase (parts : List P1.PlacedPart) (cb : Chipboard) :
    P1.generateCutLines (parts.map erasePlaced) cb = P1.generateCutLines parts cb := by
  suffices hgen : ∀ (l : List P1.PlacedPart) (acc : List CutLine),
      (l.map erasePlaced).foldl
          (fun acc part =>
            P1.addCut
              (P1.addCut
                (P1.addCut
                  (P1.addCut acc part.x cb.margin part.x (cb.dimensions.height - cb.margin))
                  (part.x + part.dimensions.width) cb.margin (part.x + part.dimensions.width)
                  (cb.dimensions.height - cb.margin))
                cb.margin part.y (cb.dimensions.width - cb.margin) part.y)
              cb.margin (part.y + part.dimensions.height) (cb.dimensions.width - cb.margin)
              (part.y + part.dimensions.height)) acc =
        l.foldl
          (fun acc part =>
            P1.addCut
              (P1.addCut
                (P1.addCut
                  (P1.addCut acc part.x cb.margin part.x (cb.dimensions.height - cb.margin))
                  (part.x + part.dimensions.width) cb.margin (part.x + part.dimensions.width)
                  (cb.dimensions.height - cb.margin))
                cb.margin part.y (cb.dimensions.width - cb.margin) part.y)
              cb.margin (part.y + part.dimensions.height) (cb.dimensions.width - cb.margin)
              (part.y + part.dimensions.height)) acc by
    simp only [P1.generateCutLines]
    exact hgen parts []
  intro l
  induction l with
  | nil => intro acc; rfl
  | cons q qs ih =>
      intro acc
      simp only [List.map_cons, List.foldl_cons]
      exact ih _

theorem packChipboard_erase (cb : Chipboard) (parts : List P1.PartInstance) (k : ℚ) :
    P1.packChipboard cb (parts.map eraseInst) k =
      (eraseBoard (P1.packChipboard cb parts k).1,
       (P1.packChipboard cb parts k).2.map eraseInst) := by
  simp only [P1.packChipboard]
  have hgo := packGo_erase k parts
    [P1.Rectangle.mk cb.margin cb.margin (cb.dimensions.width - 2 * cb.margin)
      (cb.dimensions.height - 2 * cb.margin)]
    [cb.margin] [cb.margin] [] []
  simp only [List.map_nil] at hgo
  rw [hgo]
  simp [eraseBoard, generateCutLines_erase]

theorem calculateStatistics_erase (boards : List P1.ChipboardWithParts) (n : ℕ)
    (cb : Chipboard) :
    P1.calculateStatistics (boards.map eraseBoard) n cb =
      P1.calculateStatistics boards n cb := by
  have hc1 : ((fun b : P1.ChipboardWithParts => b.cutLines.length) ∘ eraseBoard) =
      fun b : P1.ChipboardWithParts => b.cutLines.length := rfl
  have hc2 : ((fun b : P1.ChipboardWithParts => (b.cutLines.map (fun c => c.length)).sum) ∘
      eraseBoard) =
      fun b : P1.ChipboardWithParts => (b.cutLines.map (fun c => c.length)).sum := rfl
  have hc3 : ((fun b : P1.ChipboardWithParts =>
        (b.parts.map (fun p => p.dimensions.width * p.dimensions.height)).sum) ∘ eraseBoard) =
      fun b : P1.ChipboardWithParts =>
        (b.parts.map (fun p => p.dimensions.width * p.dimensions.height)).sum := by
    funext b
    simp only [Function.comp_apply, eraseBoard, List.map_map]
    congr 1
  simp only [P1.calculateStatistics, List.map_map, List.length_map, hc1, hc2, hc3]

theorem optLoop_erase (cb : Chipboard) (k : ℚ) :
    ∀ (fuel : ℕ) (remaining : List P1.PartInstance) (acc : List P1.ChipboardWithParts),
      P1.optLoop cb k fuel (remaining.map eraseInst) (acc.map eraseBoard) =
        Option.map (List.map eraseBoard) (P1.optLoop cb k fuel remaining acc) := by
  intro fuel
  induction fuel with
  | zero =>
      intro remaining acc
      cases remaining with
      | nil => rw [List.map_nil, P1.optLoop_nil, P1.optLoop_nil]; rfl
      | cons p ps =>
          rw [List.map_cons, P1.optLoop_cons_zero, P1.optLoop_cons_zero]; rfl
  | succ n ih =>
      intro remaining acc
      cases remaining with
      | nil => rw [List.map_nil, P1.optLoop_nil, P1.optLoop_nil]; rfl
      | cons p ps =>
          rw [List.map_cons, P1.optLoop_cons cb k (n + 1) (eraseInst p) (ps.map eraseInst)
            (acc.map eraseBoard) (by omega), P1.optLoop_cons cb k (n + 1) p ps acc (by omega)]
          have hmc : (eraseInst p :: ps.map eraseInst) = (p :: ps).map eraseInst := rfl
          rw [hmc, packChipboard_erase]
          have hacc : (acc.map eraseBoard) ++ [eraseBoard (P1.packChipboard cb (p :: ps) k).1] =
              (acc ++ [(P1.packChipboard cb (p :: ps) k).1]).map eraseBoard := by simp
          simp only [Nat.add_sub_cancel]
          rw [hacc]
          exact ih _ _

theorem optLoop_erase_nil (cb : Chipboard) (k : ℚ) (fuel : ℕ)
    (remaining : List P1.PartInstance) :
    P1.optLoop cb k fuel (remaining.map eraseInst) [] =
      Option.map (List.map eraseBoard) (P1.optLoop cb k fuel remaining []) :=
  optLoop_erase cb k fuel remaining []

theorem optimizePlacement_erase (fuel : ℕ) (s : ℕ → String) (cb : Chipboard)
    (ps : List ProjectPart) (k : ℚ) :
    Option.map eraseResult (P1.optimizePlacement fuel s cb ps k) =
      P1.optimizePlacement fuel (fun _ => "") cb ps k := by
  have hexp : P1.expandParts ps (fun _ => "") = (P1.expandParts ps s).map eraseInst := by
    rw [P1.expandParts, P1.expandParts, expandFrom_erase]
  have hsort : P1.sortByArea (P1.expandParts ps (fun _ => "")) =
      (P1.sortByArea (P1.expandParts ps s)).map eraseInst := by
    rw [hexp, P1.sortByArea, P1.sortByArea, jsSortBy_map eraseInst P1.areaLt (fun a b => rfl)]
  simp only [P1.optimizePlacement]
  rw [hsort, hexp, optLoop_erase_nil]
  cases hres : P1.optLoop cb k fuel (P1.sortByArea (P1.expandParts ps s)) [] with
  | none => rfl
  | some boards =>
      simp only [Option.map_some', List.length_map]
      congr 1
      simp only [eraseResult, calculateStatistics_erase]

/-- Counterexample to C4 as stated: two invocations of `optimizePlacement` on
identical chipboard, part and kerf inputs draw different instance ids from
`uuidv4()` (modelled as the id supply), so the results differ in the
`PlacedPart.id` fields. -/
theorem c4_identity_not_deterministic :
    P1.optimizePlacement 2 (fun _ => "a") sheet100 [onePart "A" 50 50] 0 ≠
      P1.optimizePlacement 2 (fun _ => "b") sheet100 [onePart "A" 50 50] 0 := by
  intro he
  have hid := congrArg
    (Option.map (fun r => r.chipboards.map (fun b => b.parts.map (fun q => q.id)))) he
  revert hid
  norm_num [onePart, sheet100, P1.optimizePlacement, P1.expandParts, P1.expandFrom,
    P1.expandOne, P1.sortByArea, jsSortBy, insertOrdered, P1.areaLt,
    P1.optLoop_cons, P1.optLoop_nil, P1.packChipboard, P1.packGo,
    P1.findBestPlacement, P1.scanRectangles, P1.considerOrientation,
    P1.findAlignedPosition, P1.firstAlignedCut, sortedAsc, setAdd,
    P1.splitRectangle, P1.removeFirst, List.cons_ne_nil]
  all_goals decide

/-- Claim C4, amended.  `optimizePlacement` is deterministic modulo the
freshly drawn instance ids: erasing every `PlacedPart.id`, two runs with any
two id supplies on identical chipboard, part and kerf inputs give identical
results. -/
theorem c4_deterministic_modulo_ids (fuel : ℕ) (s1 s2 : ℕ → String)
    (cb : Chipboard) (ps : List ProjectPart) (k : ℚ) :
    Option.map eraseResult (P1.optimizePlacement fuel s1 cb ps k) =
      Option.map eraseResult (P1.optimizePlacement fuel s2 cb ps k) := by
  rw [optimizePlacement_erase, optimizePlacement_erase]

theorem pairsV_cons (p : P2.PlacedPart) (ps : List P2.PlacedPart) :
    pairsV (p :: ps) =
      (p.x, spanV p) :: (p.x + p.dimensions.width, spanV p) :: pairsV ps := by
  simp [pairsV, List.flatMap_cons]

theorem pairsH_cons (p : P2.PlacedPart) (ps : List P2.PlacedPart) :
    pairsH (p :: ps) =
      (p.y, spanH p) :: (p.y + p.dimensions.height, spanH p) :: pairsH ps := by
  simp [pairsH, List.flatMap_cons]

theorem groupAt_cons (e : ℚ × CutOpt.Segment) (L : List (ℚ × CutOpt.Segment)) (k : ℚ) :
    groupAt (e :: L) k = (if e.1 = k then [e.2] else []) ++ groupAt L k := by
  simp only [groupAt, List.filter_cons]
  by_cases h : e.1 = k <;> simp [h]

theorem motivatedV_cons (p : P2.PlacedPart) (ps : List P2.PlacedPart) (x : ℚ) :
    motivatedV (p :: ps) x =
      (if p.x = x ∨ p.x + p.dimensions.width = x then [spanV p] else []) ++
        motivatedV ps x := by
  simp only [motivatedV, List.filter_cons]
  by_cases h1 : p.x = x <;> by_cases h2 : p.x + p.dimensions.width = x <;>
    simp [h1, h2]

theorem motivatedH_cons (p : P2.PlacedPart) (ps : List P2.PlacedPart) (y : ℚ) :
    motivatedH (p :: ps) y =
      (if p.y = y ∨ p.y + p.dimensions.height = y then [spanH p] else []) ++
        motivatedH ps y := by
  simp only [motivatedH, List.filter_cons]
  by_cases h1 : p.y = y <;> by_cases h2 : p.y + p.dimensions.height = y <;>
    simp [h1, h2]

theorem mem_setAdd (s : List ℚ) (v x : ℚ) : x ∈ setAdd s v ↔ x ∈ s ∨ x = v := by
  unfold setAdd
  split
  · rename_i hv
    constructor
    · exact Or.inl
    · rintro (h | rfl)
      · exact h
      · exact hv
  · simp

theorem mem_foldl_setAdd : ∀ (l acc : List ℚ) (x : ℚ),
    x ∈ l.foldl setAdd acc ↔ x ∈ acc ∨ x ∈ l := by
  intro l
  induction l with
  | nil => intro acc x; simp
  | cons y ys ih =>
      intro acc x
      rw [List.foldl_cons, ih, mem_setAdd]
      simp [or_assoc]

theorem mem_distinctFirst (l : List ℚ) (x : ℚ) : x ∈ distinctFirst l ↔ x ∈ l := by
  rw [distinctFirst, mem_foldl_setAdd]
  simp

theorem nodup_foldl_setAdd : ∀ (l acc : List ℚ), acc.Nodup → (l.foldl setAdd acc).Nodup := by
  intro l
  induction l with
  | nil => intro acc h; exact h
  | cons y ys ih =>
      intro acc h
      rw [List.foldl_cons]
      apply ih
      unfold setAdd
      split
      · exact h
      · rename_i hy
        simpa using List.Nodup.append h (List.nodup_singleton y) (by simpa using hy)

theorem nodup_distinctFirst (l : List ℚ) : (distinctFirst l).Nodup :=
  nodup_foldl_setAdd l [] List.nodup_nil

theorem distinctFirst_append (l : List ℚ) (x : ℚ) :
    distinctFirst (l ++ [x]) = setAdd (distinctFirst l) x := by
  simp [distinctFirst, List.foldl_append]

theorem groupAt_append (L : List (ℚ × CutOpt.Segment)) (e : ℚ × CutOpt.Segment) (k : ℚ) :
    groupAt (L ++ [e]) k = groupAt L k ++ (if e.1 = k then [e.2] else []) := by
  simp only [groupAt, List.filter_append, List.map_append]
  congr 1
  by_cases h : e.1 = k <;> simp [h]

theorem groupAt_nil_of_not_mem (L : List (ℚ × CutOpt.Segment)) (k : ℚ)
    (h : k ∉ L.map Prod.fst) : groupAt L k = [] := by
  rw [groupAt, List.filter_eq_nil_iff.mpr, List.map_nil]
  intro e he
  simp only [decide_eq_true_eq]
  intro hk
  exact h (hk ▸ List.mem_map_of_mem Prod.fst he)

theorem addCutSegment_map (g : ℚ → List CutOpt.Segment) (pos : ℚ) (s : CutOpt.Segment) :
    ∀ ks : List ℚ, ks.Nodup →
      CutOpt.addCutSegment (ks.map fun k => (k, g k)) pos s =
        if pos ∈ ks then ks.map fun k => (k, if k = pos then g k ++ [s] else g k)
        else (ks.map fun k => (k, g k)) ++ [(pos, [s])] := by
  intro ks
  induction ks with
  | nil => intro _; simp [CutOpt.addCutSegment]
  | cons k ks ih =>
      intro hnod
      rw [List.nodup_cons] at hnod
      by_cases hk : k = pos
      · subst hk
        rw [if_pos (List.mem_cons_self k ks)]
        simp only [List.map_cons, CutOpt.addCutSegment, if_pos rfl]
        refine congrArg (List.cons _) ?_
        apply List.map_congr_left
        intro a ha
        have hne : ¬ a = k := fun he => hnod.1 (he ▸ ha)
        rw [if_neg hne]
      · simp only [List.map_cons, CutOpt.addCutSegment, if_neg hk, ih hnod.2]
        by_cases hmem : pos ∈ ks
        · rw [if_pos hmem, if_pos (List.mem_cons_of_mem k hmem)]
          try simp only [List.map_cons, if_neg hk]
        · have hnotc : pos ∉ (k :: ks) := by
            intro hc
            rcases List.mem_cons.mp hc with he | hm
            · exact hk he.symm
            · exact hmem hm
          rw [if_neg hmem, if_neg hnotc]
          try simp

theorem foldPairs_eq (L : List (ℚ × CutOpt.Segment)) :
    foldPairs L = (distinctFirst (L.map Prod.fst)).map fun k => (k, groupAt L k) := by
  induction L using List.reverseRecOn with
  | nil => rfl
  | append_singleton L e ih =>
      have hfp : foldPairs (L ++ [e]) = CutOpt.addCutSegment (foldPairs L) e.1 e.2 := by
        simp [foldPairs, List.foldl_append]
      rw [hfp, ih, addCutSegment_map _ _ _ _ (nodup_distinctFirst _)]
      rw [List.map_append]
      simp only [List.map_cons, List.map_nil]
      rw [distinctFirst_append]
      by_cases hmem : e.1 ∈ distinctFirst (L.map Prod.fst)
      · rw [if_pos hmem]
        have hset : setAdd (distinctFirst (L.map Prod.fst)) e.1 =
            distinctFirst (L.map Prod.fst) := by
          unfold setAdd; rw [if_pos hmem]
        rw [hset]
        apply List.map_congr_left
        intro k hk
        rw [groupAt_append]
        by_cases hke : k = e.1
        · simp [hke]
        · have h2 : ¬ e.1 = k := fun h => hke h.symm
          simp [hke, h2]
      · rw [if_neg hmem]
        have hset : setAdd (distinctFirst (L.map Prod.fst)) e.1 =
            distinctFirst (L.map Prod.fst) ++ [e.1] := by
          unfold setAdd; rw [if_neg hmem]
        rw [hset, List.map_append]
        congr 1
        · apply List.map_congr_left
          intro k hk
          rw [groupAt_append]
          have : ¬ e.1 = k := by
            intro h
            exact hmem (h ▸ hk)
          simp [this]
        · simp only [List.map_cons, List.map_nil]
          rw [groupAt_append]
          rw [groupAt_nil_of_not_mem L e.1 (fun h => hmem ((mem_distinctFirst _ _).mpr h))]
          simp

theorem collectVertical_eq (parts : List P2.PlacedPart) :
    CutOpt.collectVertical parts = foldPairs (pairsV parts) := by
  suffices h : ∀ (l : List P2.PlacedPart) (m : List (ℚ × List CutOpt.Segment)),
      l.foldl (fun m p =>
        CutOpt.addCutSegment (CutOpt.addCutSegment m p.x ⟨p.y, p.y + p.dimensions.height⟩)
          (p.x + p.dimensions.width) ⟨p.y, p.y + p.dimensions.height⟩) m =
      (pairsV l).foldl (fun m e => CutOpt.addCutSegment m e.1 e.2) m by
    exact h parts []
  intro l
  induction l with
  | nil => intro m; rfl
  | cons p ps ih =>
      intro m
      rw [List.foldl_cons, pairsV_cons, List.foldl_cons, List.foldl_cons, ← ih]
      rfl

theorem collectHorizontal_eq (parts : List P2.PlacedPart) :
    CutOpt.collectHorizontal parts = foldPairs (pairsH parts) := by
  suffices h : ∀ (l : List P2.PlacedPart) (m : List (ℚ × List CutOpt.Segment)),
      l.foldl (fun m p =>
        CutOpt.addCutSegment (CutOpt.addCutSegment m p.y ⟨p.x, p.x + p.dimensions.width⟩)
          (p.y + p.dimensions.height) ⟨p.x, p.x + p.dimensions.width⟩) m =
      (pairsH l).foldl (fun m e => CutOpt.addCutSegment m e.1 e.2) m by
    exact h parts []
  intro l
  induction l with
  | nil => intro m; rfl
  | cons p ps ih =>
      intro m
      rw [List.foldl_cons, pairsH_cons, List.foldl_cons, List.foldl_cons, ← ih]
      rfl

theorem keys_pairsV (parts : List P2.PlacedPart) :
    (pairsV parts).map Prod.fst = parts.flatMap fun p => [p.x, p.x + p.dimensions.width] := by
  induction parts with
  | nil => rfl
  | cons p ps ih => simp [pairsV_cons, List.flatMap_cons, ih]

theorem keys_pairsH (parts : List P2.PlacedPart) :
    (pairsH parts).map Prod.fst = parts.flatMap fun p => [p.y, p.y + p.dimensions.height] := by
  induction parts with
  | nil => rfl
  | cons p ps ih => simp [pairsH_cons, List.flatMap_cons, ih]

theorem groupAt_pairsV (parts : List P2.PlacedPart)
    (hpos : ∀ p ∈ parts, 0 < p.dimensions.width ∧ 0 < p.dimensions.height) (x : ℚ) :
    groupAt (pairsV parts) x = motivatedV parts x := by
  induction parts with
  | nil => rfl
  | cons p ps ih =>
      have hp := hpos p (List.mem_cons_self p ps)
      have ih' := ih fun q hq => hpos q (List.mem_cons_of_mem p hq)
      rw [pairsV_cons, groupAt_cons, groupAt_cons, ih', motivatedV_cons]
      by_cases h1 : p.x = x
      · have hne : p.dimensions.width ≠ 0 := ne_of_gt hp.1
        simp [h1, hne]
      · by_cases h2 : p.x + p.dimensions.width = x
        · simp [h1, h2]
        · simp [h1, h2]

theorem groupAt_pairsH (parts : List P2.PlacedPart)
    (hpos : ∀ p ∈ parts, 0 < p.dimensions.width ∧ 0 < p.dimensions.height) (y : ℚ) :
    groupAt (pairsH parts) y = motivatedH parts y := by
  induction parts with
  | nil => rfl
  | cons p ps ih =>
      have hp := hpos p (List.mem_cons_self p ps)
      have ih' := ih fun q hq => hpos q (List.mem_cons_of_mem p hq)
      rw [pairsH_cons, groupAt_cons, groupAt_cons, ih', motivatedH_cons]
      by_cases h1 : p.y = y
      · have hne : p.dimensions.height ≠ 0 := ne_of_gt hp.2
        simp [h1, hne]
      · by_cases h2 : p.y + p.dimensions.height = y
        · simp [h1, h2]
        · simp [h1, h2]

theorem flatMap_map_list (f : ℚ → ℚ × List CutOpt.Segment)
    (g : ℚ × List CutOpt.Segment → List CutLine) (l : List ℚ) :
    (l.map f).flatMap g = l.flatMap fun x => g (f x) := by
  induction l with
  | nil => rfl
  | cons x xs ih => simp [List.flatMap_cons, ih]

theorem recalculateCutLines_eq_spec (parts : List P2.PlacedPart) (cb : Chipboard) (k : ℚ)
    (hpos : ∀ p ∈ parts, 0 < p.dimensions.width ∧ 0 < p.dimensions.height) :
    CutOpt.recalculateCutLines parts cb k = cutLinesSpec parts cb := by
  have hv : CutOpt.collectVertical parts =
      (xEdgeCoords parts).map fun x => (x, motivatedV parts x) := by
    rw [collectVertical_eq, foldPairs_eq, keys_pairsV]
    apply List.map_congr_left
    intro x _
    rw [groupAt_pairsV parts hpos]
  have hh : CutOpt.collectHorizontal parts =
      (yEdgeCoords parts).map fun y => (y, motivatedH parts y) := by
    rw [collectHorizontal_eq, foldPairs_eq, keys_pairsH]
    apply List.map_congr_left
    intro y _
    rw [groupAt_pairsH parts hpos]
  simp only [CutOpt.recalculateCutLines]
  rw [hv, hh, flatMap_map_list, flatMap_map_list]
  rfl

theorem segLt_asym : ∀ a b : CutOpt.Segment,
    CutOpt.segLt a b = true → CutOpt.segLt b a = false := by
  intro a b
  simp only [CutOpt.segLt, decide_eq_true_eq, decide_eq_false_iff_not]
  intro h
  linarith

theorem segLt_trans : ∀ a b c : CutOpt.Segment,
    CutOpt.segLt a b = true → CutOpt.segLt b c = true → CutOpt.segLt a c = true := by
  intro a b c
  simp only [CutOpt.segLt, decide_eq_true_eq]
  intro h1 h2
  linarith

theorem mergeRun_start : ∀ (cs : List CutOpt.Segment) (last : CutOpt.Segment),
    (last :: cs).Pairwise (fun a b => a.start ≤ b.start) →
    ∀ s ∈ CutOpt.mergeRun last cs, last.start ≤ s.start := by
  intro cs
  induction cs with
  | nil =>
      intro last _ s hs
      simp only [CutOpt.mergeRun, List.mem_singleton] at hs
      subst hs
      exact le_refl _
  | cons c cs ih =>
      intro last hpair s hs
      rw [List.pairwise_cons] at hpair
      obtain ⟨hhead, htail⟩ := hpair
      simp only [CutOpt.mergeRun] at hs
      split at hs
      · have hp2 : ((⟨last.start, max last.stop c.stop⟩ : CutOpt.Segment) :: cs).Pairwise
            (fun a b => a.start ≤ b.start) := by
          rw [List.pairwise_cons]
          exact ⟨fun b hb => hhead b (List.mem_cons_of_mem c hb),
            (List.pairwise_cons.mp htail).2⟩
        exact ih _ hp2 s hs
      · rcases List.mem_cons.mp hs with rfl | hs'
        · exact le_refl _
        · exact le_trans (hhead c (List.mem_cons_self c cs)) (ih c htail s hs')

theorem mergeRun_chain : ∀ (cs : List CutOpt.Segment) (last : CutOpt.Segment),
    (last :: cs).Pairwise (fun a b => a.start ≤ b.start) →
    (CutOpt.mergeRun last cs).Pairwise (fun a b => a.stop < b.start) := by
  intro cs
  induction cs with
  | nil =>
      intro last _
      simp [CutOpt.mergeRun]
  | cons c cs ih =>
      intro last hpair
      rw [List.pairwise_cons] at hpair
      obtain ⟨hhead, htail⟩ := hpair
      simp only [CutOpt.mergeRun]
      split
      · apply ih
        rw [List.pairwise_cons]
        exact ⟨fun b hb => hhead b (List.mem_cons_of_mem c hb),
          (List.pairwise_cons.mp htail).2⟩
      · rename_i hgt
        rw [List.pairwise_cons]
        constructor
        · intro s hs
          have hcs : c.start ≤ s.start := mergeRun_start cs c htail s hs
          have hlt : last.stop < c.start := not_le.mp hgt
          linarith
        · exact ih c htail

theorem mergeSegments_chain (l : List CutOpt.Segment) :
    (CutOpt.mergeSegments l).Pairwise (fun a b => a.stop < b.start) := by
  have hs : (jsSortBy CutOpt.segLt l).Pairwise (fun a b => a.start ≤ b.start) :=
    (jsSortBy_pairwise segLt_asym segLt_trans l).imp (by
      intro a b h
      simp only [CutOpt.segLt, decide_eq_false_iff_not] at h
      exact le_of_not_lt h)
  cases h : jsSortBy CutOpt.segLt l with
  | nil => simp [CutOpt.mergeSegments, h]
  | cons s rest =>
      rw [h] at hs
      simp only [CutOpt.mergeSegments, h]
      exact mergeRun_chain rest s hs

theorem emitV_mem (cb : Chipboard) (x : ℚ) (s : CutOpt.Segment) (l : CutLine)
    (h : l ∈ emitV cb x s) :
    l.x1 = x ∧ l.x2 = x ∧ l.y1 = max s.start cb.margin ∧
      l.y2 = min s.stop (cb.dimensions.height - cb.margin) ∧ l.y1 < l.y2 := by
  unfold emitV at h
  split at h
  · rename_i hlt
    rw [List.mem_singleton] at h
    subst h
    exact ⟨rfl, rfl, rfl, rfl, hlt⟩
  · simp at h

theorem emitH_mem (cb : Chipboard) (y : ℚ) (s : CutOpt.Segment) (l : CutLine)
    (h : l ∈ emitH cb y s) :
    l.y1 = y ∧ l.y2 = y ∧ l.x1 = max s.start cb.margin ∧
      l.x2 = min s.stop (cb.dimensions.width - cb.margin) ∧ l.x1 < l.x2 := by
  unfold emitH at h
  split at h
  · rename_i hlt
    rw [List.mem_singleton] at h
    subst h
    exact ⟨rfl, rfl, rfl, rfl, hlt⟩
  · simp at h

theorem chain_emitV (cb : Chipboard) (x : ℚ) : ∀ segs : List CutOpt.Segment,
    segs.Pairwise (fun a b => a.stop < b.start) →
    (segs.flatMap (emitV cb x)).Pairwise (fun l1 l2 => l1.y2 < l2.y2) := by
  intro segs
  induction segs with
  | nil => intro _; simp
  | cons s segs ih =>
      intro hpair
      rw [List.pairwise_cons] at hpair
      rw [List.flatMap_cons]
      apply List.pairwise_append.mpr
      refine ⟨?_, ih hpair.2, ?_⟩
      · unfold emitV
        split
        · simp
        · simp
      · intro l1 h1 l2 h2
        obtain ⟨_, _, hy1a, hy2a, hlta⟩ := emitV_mem cb x s l1 h1
        rw [List.mem_flatMap] at h2
        obtain ⟨t, ht, hmem⟩ := h2
        obtain ⟨_, _, hy1b, hy2b, hltb⟩ := emitV_mem cb x t l2 hmem
        have hchain : s.stop < t.start := hpair.1 t ht
        have ha : l1.y2 ≤ s.stop := by rw [hy2a]; exact min_le_left _ _
        have hb : t.start ≤ l2.y1 := by rw [hy1b]; exact le_max_left _ _
        linarith

theorem chain_emitH (cb : Chipboard) (y : ℚ) : ∀ segs : List CutOpt.Segment,
    segs.Pairwise (fun a b => a.stop < b.start) →
    (segs.flatMap (emitH cb y)).Pairwise (fun l1 l2 => l1.x2 < l2.x2) := by
  intro segs
  induction segs with
  | nil => intro _; simp
  | cons s segs ih =>
      intro hpair
      rw [List.pairwise_cons] at hpair
      rw [List.flatMap_cons]
      apply List.pairwise_append.mpr
      refine ⟨?_, ih hpair.2, ?_⟩
      · unfold emitH
        split
        · simp
        · simp
      · intro l1 h1 l2 h2
        obtain ⟨_, _, hx1a, hx2a, hlta⟩ := emitH_mem cb y s l1 h1
        rw [List.mem_flatMap] at h2
        obtain ⟨t, ht, hmem⟩ := h2
        obtain ⟨_, _, hx1b, hx2b, hltb⟩ := emitH_mem cb y t l2 hmem
        have hchain : s.stop < t.start := hpair.1 t ht
        have ha : l1.x2 ≤ s.stop := by rw [hx2a]; exact min_le_left _ _
        have hb : t.start ≤ l2.x1 := by rw [hx1b]; exact le_max_left _ _
        linarith

theorem nodup_flatMap_key (g : CutLine → ℚ) (f : ℚ → List CutLine)
    (hnod : ∀ k, (f k).Nodup) (hkey : ∀ k l, l ∈ f k → g l = k) :
    ∀ ks : List ℚ, ks.Nodup → (ks.flatMap f).Nodup := by
  intro ks
  induction ks with
  | nil => intro _; simp
  | cons k ks ih =>
      intro hn
      rw [List.nodup_cons] at hn
      rw [List.flatMap_cons]
      refine List.Nodup.append (hnod k) (ih hn.2) ?_
      intro l hl1 hl2
      rw [List.mem_flatMap] at hl2
      obtain ⟨q, hq, hlq⟩ := hl2
      have e1 := hkey k l hl1
      have e2 := hkey q l hlq
      apply hn.1
      rw [← e2] at hq
      rw [e1] at hq
      exact hq

theorem specVLines_nodup (parts : List P2.PlacedPart) (cb : Chipboard) :
    (specVLines parts cb).Nodup := by
  refine nodup_flatMap_key (fun l => l.x1) _ ?_ ?_ _ (nodup_distinctFirst _)
  · intro x
    by_cases h : x < cb.margin ∨ x > cb.dimensions.width - cb.margin
    · simp [h]
    · rw [if_neg h]
      refine (chain_emitV cb x _ (mergeSegments_chain _)).imp ?_
      intro l1 l2 hlt heq
      rw [heq] at hlt
      exact lt_irrefl _ hlt
  · intro k l hl
    by_cases h : k < cb.margin ∨ k > cb.dimensions.width - cb.margin
    · rw [if_pos h] at hl
      simp at hl
    · rw [if_neg h] at hl
      rw [List.mem_flatMap] at hl
      obtain ⟨s, _, hmem⟩ := hl
      exact (emitV_mem cb k s l hmem).1

theorem specHLines_nodup (parts : List P2.PlacedPart) (cb : Chipboard) :
    (specHLines parts cb).Nodup := by
  refine nodup_flatMap_key (fun l => l.y1) _ ?_ ?_ _ (nodup_distinctFirst _)
  · intro y
    by_cases h : y < cb.margin ∨ y > cb.dimensions.height - cb.margin
    · simp [h]
    · rw [if_neg h]
      refine (chain_emitH cb y _ (mergeSegments_chain _)).imp ?_
      intro l1 l2 hlt heq
      rw [heq] at hlt
      exact lt_irrefl _ hlt
  · intro k l hl
    by_cases h : k < cb.margin ∨ k > cb.dimensions.height - cb.margin
    · rw [if_pos h] at hl
      simp at hl
    · rw [if_neg h] at hl
      rw [List.mem_flatMap] at hl
      obtain ⟨s, _, hmem⟩ := hl
      exact (emitH_mem cb k s l hmem).1

theorem specVLines_strict (parts : List P2.PlacedPart) (cb : Chipboard) (l : CutLine)
    (h : l ∈ specVLines parts cb) : l.y1 < l.y2 := by
  simp only [specVLines] at h
  rw [List.mem_flatMap] at h
  obtain ⟨x, _, hl⟩ := h
  by_cases hc : x < cb.margin ∨ x > cb.dimensions.width - cb.margin
  · rw [if_pos hc] at hl
    simp at hl
  · rw [if_neg hc] at hl
    rw [List.mem_flatMap] at hl
    obtain ⟨s, _, hmem⟩ := hl
    exact (emitV_mem cb x s l hmem).2.2.2.2

theorem specHLines_level (parts : List P2.PlacedPart) (cb : Chipboard) (l : CutLine)
    (h : l ∈ specHLines parts cb) : l.y1 = l.y2 := by
  simp only [specHLines] at h
  rw [List.mem_flatMap] at h
  obtain ⟨y, _, hl⟩ := h
  by_cases hc : y < cb.margin ∨ y > cb.dimensions.height - cb.margin
  · rw [if_pos hc] at hl
    simp at hl
  · rw [if_neg hc] at hl
    rw [List.mem_flatMap] at hl
    obtain ⟨s, _, hmem⟩ := hl
    obtain ⟨h1, h2, _⟩ := emitH_mem cb y s l hmem
    rw [h1, h2]

theorem cutLinesSpec_nodup (parts : List P2.PlacedPart) (cb : Chipboard) :
    (cutLinesSpec parts cb).Nodup := by
  simp only [cutLinesSpec]
  refine List.Nodup.append (specVLines_nodup parts cb) (specHLines_nodup parts cb) ?_
  intro l h1 h2
  exact absurd (specHLines_level parts cb l h2)
    (ne_of_lt (specVLines_strict parts cb l h1))

/-- Claim C6.  On parts with positive extents, `recalculateCutLines` returns
exactly the lines the claim describes — per distinct in-range part-edge
coordinate, one line per maximal merged group of the motivating parts spans,
merged when overlapping or adjacent, clipped to the usable rectangle and
dropped when empty — and the returned list has no duplicate lines. -/
theorem c6_cutlines_merged_spec (parts : List P2.PlacedPart) (cb : Chipboard) (k : ℚ)
    (hpos : ∀ p ∈ parts, 0 < p.dimensions.width ∧ 0 < p.dimensions.height) :
    CutOpt.recalculateCutLines parts cb k = cutLinesSpec parts cb ∧
      (CutOpt.recalculateCutLines parts cb k).Nodup := by
  have he := recalculateCutLines_eq_spec parts cb k hpos
  refine ⟨he, ?_⟩
  rw [he]
  exact cutLinesSpec_nodup parts cb

/-- Witness for C6 at the concrete two-part sheet of `boardC8`. -/
theorem c6_cutlines_merged_spec_witness :
    (∀ p ∈ boardC8.parts, 0 < p.dimensions.width ∧ 0 < p.dimensions.height) ∧
    (CutOpt.recalculateCutLines boardC8.parts sheet100 0 =
        cutLinesSpec boardC8.parts sheet100 ∧
      (CutOpt.recalculateCutLines boardC8.parts sheet100 0).Nodup) := by
  have hpos : ∀ p ∈ boardC8.parts, 0 < p.dimensions.width ∧ 0 < p.dimensions.height := by
    decide
  exact ⟨hpos, c6_cutlines_merged_spec boardC8.parts sheet100 0 hpos⟩

end Placer
